import Mathlib

/-!
# Verification of the limb socket designer geometry pipeline

Shallow embedding of the repository's core logic:

* `src/utils/convexHull.js` — Graham scan (`getConvexHull`) and scanline
  polygon fill (`fillPolygon`); coordinates are modelled exactly as
  rationals (JS numbers on the inputs of interest are exact).
* `src/utils/limbGeometry.js` — `buildOccupiedVoxels` (the voxel loft),
  `generateLimbGeometry` (voxel mesher) and `generateLimbGeometrySmooth`
  (marching-cubes mesher); the external THREE `MarchingCubes` object used
  by the smooth mesher is abstracted as an environment parameter.
* `src/utils/socketGeometry.js` — `generateSocket` with its primitive CSG
  loop; the external THREE/CSG library calls are abstracted as an
  environment (`SocketEnv`) of oracle functions, the repository's own
  control flow is translated directly.
* `src/stores/useStore.js` — the slice/primitive/socket store actions,
  modelled as pure state transformers over a record of the store fields.
-/

namespace LimbSocket

/-! ## ConvexHull2D (`src/utils/convexHull.js`) -/

/-- A 2D grid point `{row, col}` with exact rational coordinates. -/
structure Point where
  row : ℚ
  col : ℚ
deriving DecidableEq, Repr

/-- `cross(o, a, b)` from `convexHull.js`:
`(a.col - o.col) * (b.row - o.row) - (a.row - o.row) * (b.col - o.col)`. -/
def cross (o a b : Point) : ℚ :=
  (a.col - o.col) * (b.row - o.row) - (a.row - o.row) * (b.col - o.col)

/-- Duplicate removal via JS `Set` of `"row,col"` keys: keeps the first
occurrence of each coordinate pair, in encounter order. -/
def dedupFirst (l : List Point) : List Point :=
  l.foldl (fun acc p => if p ∈ acc then acc else acc ++ [p]) []

/-- The JS sort comparator `a.col === b.col ? a.row - b.row : a.col - b.col`:
ascending by `col`, ties by `row`. -/
def lexLe (a b : Point) : Prop :=
  a.col < b.col ∨ (a.col = b.col ∧ a.row ≤ b.row)

instance : DecidableRel lexLe := fun a b => by
  unfold lexLe; infer_instance

/-- Strict version of `lexLe`. -/
def lexLt (a b : Point) : Prop :=
  a.col < b.col ∨ (a.col = b.col ∧ a.row < b.row)

instance : DecidableRel lexLt := fun a b => by
  unfold lexLt; infer_instance

/-- The pop phase of one Graham-scan step: with the chain held most-recent
first, pop the chain head while the last two chain points and the incoming
point make a non-left turn (`cross ≤ 0`).  This models the JS
`while (length >= 2 && cross(l[len-2], l[len-1], q) <= 0) l.pop()`
with the array reversed (the array's end is the list's head). -/
def popPhase : List Point → Point → List Point
  | b :: a :: rest, q => if cross a b q ≤ 0 then popPhase (a :: rest) q else b :: a :: rest
  | l, _ => l

/-- One step of the scan: pop then push the new point. -/
def scanStep (chain : List Point) (q : Point) : List Point :=
  q :: popPhase chain q

/-- The half-hull scan: fold `scanStep` over the points.  The result is the
JS `lower`/`upper` array reversed (most recently pushed point first). -/
def chainRev (pts : List Point) : List Point :=
  pts.foldl scanStep []

/-- `getConvexHull` from `convexHull.js`.  `lower`/`upper` are built by the
same loop over the sorted points resp. the reversed sorted points; the two
`pop()`s dropping each chain's final repeated endpoint become `tail` on the
reversed chains. -/
def getConvexHull (points : List Point) : List Point :=
  if points.length < 3 then points
  else
    let uniquePoints := dedupFirst points
    if uniquePoints.length < 3 then uniquePoints
    else
      let sorted := uniquePoints.insertionSort lexLe
      let lower := chainRev sorted
      let upper := chainRev sorted.reverse
      lower.tail.reverse ++ upper.tail.reverse

/-- JS `Math.floor` on an exact rational: floor division of numerator by
(positive) denominator. -/
def jsFloor (q : ℚ) : ℤ := q.num.fdiv q.den

/-- JS `Math.ceil`. -/
def jsCeil (q : ℚ) : ℤ := -jsFloor (-q)

/-- JS `Math.round`: round half toward positive infinity. -/
def jsRound (q : ℚ) : ℤ := jsFloor (q + 1 / 2)

/-- The ascending `for (let v = lo; v <= hi; v++)` loop values (step 1,
starting at `lo`, possibly fractional). -/
def ascSteps (lo hi : ℚ) : List ℚ :=
  if hi < lo then []
  else (List.range ((jsFloor (hi - lo)).toNat + 1)).map (fun i => lo + i)

/-- Minimum of a rational list seeded by its first element (models the JS
`Infinity`-seeded fold over a nonempty list). -/
def listMin : List ℚ → ℚ
  | [] => 0
  | x :: xs => xs.foldl min x

/-- Maximum of a rational list seeded by its first element (models the JS
`-Infinity`-seeded fold over a nonempty list). -/
def listMax : List ℚ → ℚ
  | [] => 0
  | x :: xs => xs.foldl max x

/-- Even-odd pairing: consecutive pairs of the sorted intersection list,
taken two at a time (`for (i = 0; i < n; i += 2) if (i+1 < n) ...`). -/
def evenPairs : List ℚ → List (ℚ × ℚ)
  | a :: b :: rest => (a, b) :: evenPairs rest
  | _ => []

/-- The scanline-fill accumulator: JS `Set` insertion of `"row,col"` keys,
keeping first occurrences. -/
def insertCell (acc : List Point) (p : Point) : List Point :=
  if p ∈ acc then acc else acc ++ [p]

/-- `fillPolygon(hull, gridSize)` from `convexHull.js`: scanline fill of the
polygon over the integer grid. -/
def fillPolygon (hull : List Point) (gridSize : ℚ) : List Point :=
  if hull.length < 3 then []
  else
    let rows := hull.map Point.row
    let cols := hull.map Point.col
    let minRow := max 0 (listMin rows)
    let maxRow := min (gridSize - 1) (listMax rows)
    let minCol := max 0 (listMin cols)
    let maxCol := min (gridSize - 1) (listMax cols)
    let edges := hull.zip (hull.rotate 1)
    (ascSteps minRow maxRow).foldl
      (fun acc row =>
        let intersections :=
          (edges.filter (fun e =>
            (e.1.row ≤ row ∧ e.2.row > row) ∨ (e.2.row ≤ row ∧ e.1.row > row))).map
            (fun e => e.1.col + (row - e.1.row) * (e.2.col - e.1.col) / (e.2.row - e.1.row))
        let sorted := intersections.insertionSort (· ≤ ·)
        (evenPairs sorted).foldl
          (fun acc2 pr =>
            let startCol := max minCol (jsCeil pr.1 : ℚ)
            let endCol := min maxCol (jsFloor pr.2 : ℚ)
            (ascSteps startCol endCol).foldl
              (fun acc3 col => insertCell acc3 ⟨row, col⟩) acc2)
          acc)
      []

/-! ## VoxelLoft and meshers (`src/utils/limbGeometry.js`) -/

/-- A slice record `{ id, height, grid, label }`. -/
structure Slice where
  id : ℤ
  height : ℚ
  grid : List (List Bool)
  label : String
deriving DecidableEq, Repr

/-- `grid[row]?.[col]` — optional-chained grid access, `false` when out of
range. -/
def gridGet (grid : List (List Bool)) (row col : ℕ) : Bool :=
  (grid.getD row []).getD col false

/-- `slice.grid.some(row => row.some(cell => cell))` — the active-slice
filter predicate. -/
def hasContent (s : Slice) : Bool :=
  s.grid.any (fun row => row.any id)

/-- Descending sort by height (`sort((a, b) => b.height - a.height)`). -/
def heightGe (a b : Slice) : Prop := b.height ≤ a.height

instance : DecidableRel heightGe := fun a b => by
  unfold heightGe; infer_instance

/-- A deduplicated skeleton voxel `{row, col, y}` as stored by `addVoxel`:
row/col rounded to integers, `y` rounded to 3 decimal places. -/
structure Voxel where
  row : ℤ
  col : ℤ
  y : ℚ
deriving DecidableEq, Repr

/-- `Math.round(y * 1000) / 1000`. -/
def round3 (y : ℚ) : ℚ := (jsRound (y * 1000) : ℚ) / 1000

/-- `addVoxel(row, col, y)`: insert the rounded voxel if its key is new
(the JS `Map` keyed by `` `${r},${c},${yRounded}` ``). -/
def addVoxel (acc : List Voxel) (row col y : ℚ) : List Voxel :=
  let v : Voxel := ⟨jsRound row, jsRound col, round3 y⟩
  if v ∈ acc then acc else acc ++ [v]

/-- `collectActiveCells(grid, gridSize)`. -/
def collectActiveCells (grid : List (List Bool)) (gridSize : ℕ) : List Point :=
  (List.range gridSize).foldl
    (fun acc row =>
      (List.range gridSize).foldl
        (fun acc2 col =>
          if gridGet grid row col then acc2 ++ [⟨(row : ℚ), (col : ℚ)⟩] else acc2)
        acc)
    []

/-- Squared grid distance used by `findClosestCell`. -/
def cellDist2 (a b : Point) : ℚ :=
  (a.row - b.row) ^ 2 + (a.col - b.col) ^ 2

/-- `findClosestCell(cell, targetCells)`: first cell attaining the minimal
squared distance (strict improvement keeps the earlier one). -/
def findClosestCell (cell : Point) : List Point → Option Point
  | [] => none
  | t :: ts =>
    some (ts.foldl (fun best c => if cellDist2 cell c < cellDist2 cell best then c else best) t)

/-- `lerp(a, b, t)`. -/
def lerp (a b t : ℚ) : ℚ := a + (b - a) * t

/-- The interpolation chain emitted for one cell pair: steps `0..10` of
linear interpolation of row, col and height. -/
def interpolatePair (acc : List Voxel) (c1 c2 : Point) (h1 h2 : ℚ) (steps : ℕ) : List Voxel :=
  (List.range (steps + 1)).foldl
    (fun a step =>
      let t : ℚ := (step : ℚ) / (steps : ℚ)
      addVoxel a (lerp c1.row c2.row t) (lerp c1.col c2.col t) (lerp h1 h2 t))
    acc

/-- `buildOccupiedVoxels(slices, gridSize, heightScale)` from
`limbGeometry.js`: sort slices by descending height, keep those with
content; one active slice yields one voxel per active cell at the slice's
scaled height, two or more are joined pairwise by nearest-neighbour
interpolation in both directions. -/
def buildOccupiedVoxels (slices : List Slice) (gridSize : ℕ) (heightScale : ℚ) :
    List Voxel :=
  let sortedSlices := slices.insertionSort heightGe
  let slicesWithContent := sortedSlices.filter (fun s => hasContent s)
  if slicesWithContent.isEmpty then []
  else if h1 : slicesWithContent.length = 1 then
    let slice := slicesWithContent.head (by cases hsc : slicesWithContent with
      | nil => rw [hsc] at h1; simp at h1
      | cons a l => simp [hsc])
    let y := slice.height * heightScale
    (List.range gridSize).foldl
      (fun acc row =>
        (List.range gridSize).foldl
          (fun acc2 col =>
            if gridGet slice.grid row col then addVoxel acc2 (row : ℚ) (col : ℚ) y else acc2)
          acc)
      []
  else
    let steps := 10
    (slicesWithContent.zip slicesWithContent.tail).foldl
      (fun acc pr =>
        let slice1 := pr.1
        let slice2 := pr.2
        let cells1 := collectActiveCells slice1.grid gridSize
        let cells2 := collectActiveCells slice2.grid gridSize
        let height1 := slice1.height * heightScale
        let height2 := slice2.height * heightScale
        let acc1 := cells1.foldl
          (fun a cell1 =>
            match findClosestCell cell1 cells2 with
            | none => a
            | some cell2 => interpolatePair a cell1 cell2 height1 height2 steps)
          acc
        cells2.foldl
          (fun a cell2 =>
            match findClosestCell cell2 cells1 with
            | none => a
            | some cell1 => interpolatePair a cell1 cell2 height1 height2 steps)
          acc1)
      []

/-- A generated mesh: the `position` buffer (one entry per vertex) and the
flat triangle index buffer.  Normals are computed by THREE and are not
modelled. -/
structure MeshGeo where
  vertices : List (ℚ × ℚ × ℚ)
  indices : List ℕ
deriving DecidableEq, Repr

/-- Number of triangles THREE renders for the geometry: `index count / 3`
when an index buffer is set, else `vertex count / 3`. -/
def meshTriangles (m : MeshGeo) : ℕ :=
  (if m.indices.isEmpty then m.vertices.length else m.indices.length) / 3

/-- The sentinel "empty" geometry: a single vertex at the origin, no
triangles. -/
def sentinelMesh : MeshGeo := ⟨[(0, 0, 0)], []⟩

/-- `createCube(vertices, indices, vertexIndex, cx, cy, cz, hs)`: the 8
corner vertices and 12 triangles (36 flat indices) of an axis-aligned cube. -/
def createCube (vertexIndex : ℕ) (cx cy cz hs : ℚ) : List (ℚ × ℚ × ℚ) × List ℕ :=
  let b := vertexIndex
  (
    [(cx - hs, cy - hs, cz - hs), (cx + hs, cy - hs, cz - hs),
     (cx + hs, cy + hs, cz - hs), (cx - hs, cy + hs, cz - hs),
     (cx - hs, cy - hs, cz + hs), (cx + hs, cy - hs, cz + hs),
     (cx + hs, cy + hs, cz + hs), (cx - hs, cy + hs, cz + hs)],
    [b, b + 1, b + 2, b, b + 2, b + 3,
     b + 4, b + 6, b + 5, b + 4, b + 7, b + 6,
     b + 3, b + 2, b + 6, b + 3, b + 6, b + 7,
     b, b + 5, b + 1, b, b + 4, b + 5,
     b + 1, b + 5, b + 6, b + 1, b + 6, b + 2,
     b + 4, b, b + 3, b + 4, b + 3, b + 7])

/-- `generateLimbGeometry(slices, gridSize, cellSize)`: one cube per
skeleton voxel; an empty skeleton short-circuits to the sentinel mesh. -/
def generateLimbGeometry (slices : List Slice) (gridSize : ℕ) (cellSize : ℚ) : MeshGeo :=
  let heightScale := (gridSize : ℚ) * cellSize
  let hs := cellSize * (1 / 4)
  let voxelMap := buildOccupiedVoxels slices gridSize heightScale
  if voxelMap.isEmpty then sentinelMesh
  else
    let st := voxelMap.foldl
      (fun (st : List (ℚ × ℚ × ℚ) × List ℕ × ℕ) voxel =>
        let cx := ((voxel.col : ℚ) - (gridSize : ℚ) / 2) * cellSize * (1 / 2)
        let cz := ((voxel.row : ℚ) - (gridSize : ℚ) / 2) * cellSize * (1 / 2)
        let cube := createCube st.2.2 cx voxel.y cz hs
        (st.1 ++ cube.1, st.2.1 ++ cube.2, st.2.2 + 8))
      ([], [], 0)
    ⟨st.1, st.2.1⟩

/-- Abstraction of everything `generateLimbGeometrySmooth` does after the
empty-skeleton guard: the padded bounding box, the distance field, the
external THREE `MarchingCubes` object, the world transform and the normal
computation.  It receives the voxel skeleton and the remaining arguments and
yields the resulting geometry. -/
def SmoothBody : Type :=
  List Voxel → ℕ → ℚ → ℚ → Bool → MeshGeo

/-- `generateLimbGeometrySmooth(slices, gridSize, cellSize, inflation,
smoothNormals)`: builds the skeleton, short-circuits an empty skeleton to
the sentinel mesh, and otherwise runs the marching-cubes body (abstracted
as `body`). -/
def generateLimbGeometrySmooth (body : SmoothBody) (slices : List Slice)
    (gridSize : ℕ) (cellSize : ℚ) (inflation : ℚ) (smoothNormals : Bool) : MeshGeo :=
  let heightScale := (gridSize : ℚ) * cellSize
  let voxelMap := buildOccupiedVoxels slices gridSize heightScale
  if voxelMap.isEmpty then sentinelMesh
  else body voxelMap gridSize cellSize inflation smoothNormals

/-! ## SocketShellBuilder (`src/utils/socketGeometry.js`)

The repository's control flow is translated directly; the external THREE
and `three-csg-ts` library calls (geometry constructors, convex hull,
bounding boxes, CSG booleans) are collected in an environment `SocketEnv`
of oracle functions over an abstract mesh type `M`.  A CSG boolean that
throws is an oracle returning `none`. -/

/-- A THREE `Vector3` with exact real components. -/
structure Vec3 where
  x : ℝ
  y : ℝ
  z : ℝ

noncomputable section

def vadd (a b : Vec3) : Vec3 := ⟨a.x + b.x, a.y + b.y, a.z + b.z⟩

def vsub (a b : Vec3) : Vec3 := ⟨a.x - b.x, a.y - b.y, a.z - b.z⟩

def vsmul (t : ℝ) (v : Vec3) : Vec3 := ⟨t * v.x, t * v.y, t * v.z⟩

/-- `Vector3.length()`. -/
def vlength (v : Vec3) : ℝ := Real.sqrt (v.x ^ 2 + v.y ^ 2 + v.z ^ 2)

/-- `Vector3.normalize()` is `divideScalar(this.length() || 1)`: the zero
vector (falsy length) is divided by 1 and stays zero. -/
def vnormalize (v : Vec3) : Vec3 :=
  let l := vlength v
  vsmul (1 / (if l = 0 then 1 else l)) v

/-- The centroid loop of `expandPoints`: sum all points, then
`divideScalar(points.length)`. -/
def vcentroid (pts : List Vec3) : Vec3 :=
  vsmul (1 / (pts.length : ℝ)) (pts.foldl vadd ⟨0, 0, 0⟩)

/-- `expandPoints(points, amount)` from `socketGeometry.js`: move every
point away from the centroid by `amount` along the normalized
centroid-to-point direction. -/
def expandPoints (points : List Vec3) (amount : ℝ) : List Vec3 :=
  let centroid := vcentroid points
  points.map (fun p => vadd p (vsmul amount (vnormalize (vsub p centroid))))

/-- `findTopY(geometry)`: maximum `y` over the position attribute.  The JS
fold is seeded with `-Infinity`; on the nonempty lists reaching it this
equals the head-seeded fold used here. -/
def findTopY : List Vec3 → ℝ
  | [] => 0
  | p :: rest => rest.foldl (fun m q => max m q.y) p.y

end

/-- A CSG primitive record `{ id, type, position, scale, operation }`. -/
structure Primitive where
  id : String
  type : String
  position : ℝ × ℝ × ℝ
  scale : ℝ × ℝ × ℝ
  operation : String

/-- Warnings surfaced (via `console.warn`) by `generateSocket`. -/
inductive SocketWarning where
  | notEnoughPoints
  | csgFailed (id : String)
deriving DecidableEq, Repr

/-- The external THREE / `three-csg-ts` capabilities used by
`generateSocket`, over an abstract mesh/geometry type `M`.  The CSG
booleans return `none` when the underlying operation throws. -/
structure SocketEnv (M : Type) where
  convexGeometry : List Vec3 → M
  cloneGeometry : M → M
  mkMesh : M → M
  csgUnion : M → M → Option M
  csgSubtract : M → M → Option M
  csgIntersect : M → M → Option M
  sphereGeometry : ℝ → ℕ → ℕ → M
  boxGeometry : ℝ → ℝ → ℝ → M
  cylinderGeometry : ℝ → ℝ → ℝ → ℕ → M
  setPosition : M → ℝ × ℝ × ℝ → M
  setScale : M → ℝ × ℝ × ℝ → M
  boundingBox : M → Vec3 × Vec3
  geometryOf : M → M
  computeVertexNormals : M → M

/-- `createPrimitiveMesh(primitive)`: canonical unit geometry by type
(unknown types default to a unit cube), positioned and scaled. -/
noncomputable def createPrimitiveMesh {M : Type} (env : SocketEnv M) (p : Primitive) : M :=
  let geometry :=
    match p.type with
    | "sphere" => env.sphereGeometry (1 / 2) 32 32
    | "cube" => env.boxGeometry 1 1 1
    | "cylinder" => env.cylinderGeometry (1 / 2) (1 / 2) 1 32
    | _ => env.boxGeometry 1 1 1
  env.setScale (env.setPosition (env.mkMesh geometry) p.position) p.scale

/-- One iteration of the primitive CSG loop: run the primitive's operation
against the running shell inside `try/catch`; a throwing operation leaves
the shell unchanged and yields a warning naming the primitive; an operation
string that matches no `switch` case is a no-op. -/
noncomputable def primitiveStep {M : Type} (env : SocketEnv M) (shell : M) (p : Primitive) :
    M × Option SocketWarning :=
  let primMesh := createPrimitiveMesh env p
  match p.operation with
  | "union" =>
    match env.csgUnion shell primMesh with
    | some m => (m, none)
    | none => (shell, some (.csgFailed p.id))
  | "subtract" =>
    match env.csgSubtract shell primMesh with
    | some m => (m, none)
    | none => (shell, some (.csgFailed p.id))
  | "intersect" =>
    match env.csgIntersect shell primMesh with
    | some m => (m, none)
    | none => (shell, some (.csgFailed p.id))
  | _ => (shell, none)

/-- The full primitive loop of `generateSocket` step 7, also collecting the
warnings in emission order. -/
noncomputable def applyPrimitives {M : Type} (env : SocketEnv M) :
    List Primitive → M → M × List SocketWarning
  | [], shell => (shell, [])
  | p :: rest, shell =>
    let st := primitiveStep env shell p
    let tl := applyPrimitives env rest st.1
    (tl.1, st.2.toList ++ tl.2)

/-- "The CSG operation for `p` against `shell` throws": the operation
string selects one of the three boolean oracles and that oracle fails. -/
def csgOpThrows {M : Type} (env : SocketEnv M) (shell : M) (p : Primitive) : Prop :=
  (p.operation = "union" ∧ env.csgUnion shell (createPrimitiveMesh env p) = none) ∨
  (p.operation = "subtract" ∧ env.csgSubtract shell (createPrimitiveMesh env p) = none) ∨
  (p.operation = "intersect" ∧ env.csgIntersect shell (createPrimitiveMesh env p) = none)

/-- A limb `BufferGeometry` as seen by `generateSocket`: the underlying
THREE object together with its `position` attribute (absent when the
geometry has no position buffer). -/
structure LimbGeomM (M : Type) where
  handle : M
  position : Option (List Vec3)

/-- `generateSocket(limbGeometry, thickness, useConvexHull, primitives)`
from `socketGeometry.js`.  `.error` models an exception escaping the
function (only the unguarded CSG subtractions of steps 5 and 6 can throw);
`.ok (none, ws)` models a `null` return. -/
noncomputable def generateSocket {M : Type} (env : SocketEnv M)
    (limbGeometry : Option (LimbGeomM M)) (thickness : ℝ) (useConvexHull : Bool)
    (primitives : List Primitive) : Except Unit (Option M × List SocketWarning) :=
  match limbGeometry with
  | none => .ok (none, [])
  | some g =>
    match g.position with
    | none => .ok (none, [])
    | some positions =>
      -- 1. extractPointsFromGeometry reads the position attribute
      let points := positions
      if points.length < 4 then .ok (none, [.notEnoughPoints])
      else
        -- 2. inner surface (matches the limb)
        let innerGeometry :=
          if useConvexHull then env.convexGeometry points else env.cloneGeometry g.handle
        -- 3. outer surface (both branches take the hull of the expanded points)
        let outerPoints := expandPoints points thickness
        let outerGeometry := env.convexGeometry outerPoints
        -- 4./5. subtract inner from outer
        let outerMesh := env.mkMesh outerGeometry
        let innerMesh := env.mkMesh innerGeometry
        match env.csgSubtract outerMesh innerMesh with
        | none => .error ()
        | some shell0 =>
          -- 6. cut the top
          let topY := findTopY points
          let bbox := env.boundingBox outerGeometry
          let sizeX := (bbox.2).x - (bbox.1).x
          let sizeY := (bbox.2).y - (bbox.1).y
          let sizeZ := (bbox.2).z - (bbox.1).z
          let cutBoxSize := max sizeX sizeZ * 3
          let cutBoxHeight := max sizeY 10
          let cutBoxGeometry := env.boxGeometry cutBoxSize cutBoxHeight cutBoxSize
          let cutMesh := env.setPosition (env.mkMesh cutBoxGeometry)
            (((bbox.1).x + (bbox.2).x) / 2, topY + cutBoxHeight / 2 - 1 / 20,
              ((bbox.1).z + (bbox.2).z) / 2)
          match env.csgSubtract shell0 cutMesh with
          | none => .error ()
          | some shell1 =>
            -- 7. primitive CSG loop, 8. final geometry
            let res := applyPrimitives env primitives shell1
            .ok (some (env.computeVertexNormals (env.geometryOf res.1)), res.2)

/-! ## The store (`src/stores/useStore.js`, slice-based version)

Each zustand action is a pure state transformer; `set` with a partial
object is a record update.  `Date.now()` in `addPrimitive` is passed in as
the parameter `now`. -/

/-- The partial-update object passed to `updatePrimitive` (spread-merged
onto the primitive). -/
structure PrimitiveUpdate where
  type : Option String := none
  position : Option (ℝ × ℝ × ℝ) := none
  scale : Option (ℝ × ℝ × ℝ) := none
  operation : Option String := none

/-- `{ ...p, ...updates }`. -/
def mergePrimitive (p : Primitive) (u : PrimitiveUpdate) : Primitive :=
  { p with
    type := u.type.getD p.type
    position := u.position.getD p.position
    scale := u.scale.getD p.scale
    operation := u.operation.getD p.operation }

/-- `createEmptyGrid()`: a 20×20 grid of `false`. -/
def createEmptyGrid : List (List Bool) :=
  List.replicate 20 (List.replicate 20 false)

/-- The store's state, over an abstract THREE-geometry type `G` for the
cached meshes. -/
structure StoreState (G : Type) where
  slices : List Slice
  limbVisibility : String
  inflation : ℚ
  smoothNormals : Bool
  socket : Option G
  socketThickness : ℚ
  socketUseConvexHull : Bool
  generatedMesh : Option G
  primitives : List Primitive
  selectedPrimitiveId : Option String
  finalMesh : Option G

/-- `setSliceCell(sliceId, row, col, value)`: update one grid cell of one
slice and clear the cached socket. -/
def setSliceCell {G : Type} (sliceId : ℤ) (row col : ℕ) (value : Bool)
    (s : StoreState G) : StoreState G :=
  { s with
    socket := none
    slices := s.slices.map (fun slice =>
      if slice.id = sliceId then
        { slice with
          grid := slice.grid.enum.map (fun ir =>
            if ir.1 = row then
              ir.2.enum.map (fun jc => if jc.1 = col then value else jc.2)
            else ir.2) }
      else slice) }

/-- `clearSlice(sliceId)`: reset one slice's grid and clear the cached
socket. -/
def clearSlice {G : Type} (sliceId : ℤ) (s : StoreState G) : StoreState G :=
  { s with
    socket := none
    slices := s.slices.map (fun slice =>
      if slice.id = sliceId then { slice with grid := createEmptyGrid } else slice) }

/-- `setLimbVisibility(visibility)`. -/
def setLimbVisibility {G : Type} (v : String) (s : StoreState G) : StoreState G :=
  { s with limbVisibility := v }

/-- `setInflation(value)`. -/
def setInflation {G : Type} (v : ℚ) (s : StoreState G) : StoreState G :=
  { s with inflation := v }

/-- `setSmoothNormals(value)`. -/
def setSmoothNormals {G : Type} (v : Bool) (s : StoreState G) : StoreState G :=
  { s with smoothNormals := v }

/-- `setSocket(geometry)`. -/
def setSocket {G : Type} (g : Option G) (s : StoreState G) : StoreState G :=
  { s with socket := g }

/-- `clearSocket()`. -/
def clearSocket {G : Type} (s : StoreState G) : StoreState G :=
  { s with socket := none }

/-- `setSocketThickness(value)`. -/
def setSocketThickness {G : Type} (v : ℚ) (s : StoreState G) : StoreState G :=
  { s with socketThickness := v }

/-- `setSocketUseConvexHull(value)`. -/
def setSocketUseConvexHull {G : Type} (v : Bool) (s : StoreState G) : StoreState G :=
  { s with socketUseConvexHull := v }

/-- `setGeneratedMesh(mesh)`. -/
def setGeneratedMesh {G : Type} (m : Option G) (s : StoreState G) : StoreState G :=
  { s with generatedMesh := m }

/-- The primitive record `addPrimitive` constructs, with
`id = ` `` `${type}-${Date.now()}` ``. -/
def newPrimitive (type : String) (now : ℕ) : Primitive :=
  { id := type ++ "-" ++ toString now
    type := type
    position := (0, 0, 0)
    scale := (1, 1, 1)
    operation := "union" }

/-- `addPrimitive(type)`: append the new primitive and select it. -/
def addPrimitive {G : Type} (type : String) (now : ℕ) (s : StoreState G) : StoreState G :=
  { s with
    primitives := s.primitives ++ [newPrimitive type now]
    selectedPrimitiveId := some (newPrimitive type now).id }

/-- `updatePrimitive(id, updates)`. -/
def updatePrimitive {G : Type} (id : String) (u : PrimitiveUpdate)
    (s : StoreState G) : StoreState G :=
  { s with
    primitives := s.primitives.map (fun p => if p.id = id then mergePrimitive p u else p) }

/-- `deletePrimitive(id)`: remove the primitive and clear the selection if
it pointed at the removed id. -/
def deletePrimitive {G : Type} (id : String) (s : StoreState G) : StoreState G :=
  { s with
    primitives := s.primitives.filter (fun p => p.id ≠ id)
    selectedPrimitiveId :=
      if s.selectedPrimitiveId = some id then none else s.selectedPrimitiveId }

/-- `setSelectedPrimitive(id)`. -/
def setSelectedPrimitive {G : Type} (id : Option String) (s : StoreState G) : StoreState G :=
  { s with selectedPrimitiveId := id }

/-- `setFinalMesh(mesh)`. -/
def setFinalMesh {G : Type} (m : Option G) (s : StoreState G) : StoreState G :=
  { s with finalMesh := m }

/-! ## Supporting lemmas -/

/-- A slice list without content filters to nothing, in any order. -/
theorem filter_hasContent_nil (slices : List Slice)
    (h : ∀ s ∈ slices, hasContent s = false) :
    (slices.insertionSort heightGe).filter (fun s => hasContent s) = [] := by
  rw [List.filter_eq_nil_iff]
  intro s hs
  have := (List.perm_insertionSort heightGe slices).mem_iff.mp hs
  simp [h s this]

/-- An empty-skeleton guard: no content means no voxels. -/
theorem buildOccupiedVoxels_nil (slices : List Slice) (gridSize : ℕ) (heightScale : ℚ)
    (h : ∀ s ∈ slices, hasContent s = false) :
    buildOccupiedVoxels slices gridSize heightScale = [] := by
  simp only [buildOccupiedVoxels, filter_hasContent_nil slices h, List.isEmpty_nil, if_true]

/-- **C1.** For every slice list in which no slice's grid contains a true
cell, both `generateLimbGeometry` and `generateLimbGeometrySmooth` (for any
marching-cubes body) return the sentinel mesh: exactly 1 vertex and 0
triangles, never an absent result. -/
theorem empty_skeleton_sentinel (slices : List Slice) (gridSize : ℕ) (cellSize : ℚ)
    (inflation : ℚ) (smoothNormals : Bool) (body : SmoothBody)
    (h : ∀ s ∈ slices, hasContent s = false) :
    generateLimbGeometry slices gridSize cellSize = sentinelMesh ∧
    (generateLimbGeometry slices gridSize cellSize).vertices.length = 1 ∧
    meshTriangles (generateLimbGeometry slices gridSize cellSize) = 0 ∧
    generateLimbGeometrySmooth body slices gridSize cellSize inflation smoothNormals =
      sentinelMesh ∧
    (generateLimbGeometrySmooth body slices gridSize cellSize inflation
      smoothNormals).vertices.length = 1 ∧
    meshTriangles (generateLimbGeometrySmooth body slices gridSize cellSize inflation
      smoothNormals) = 0 := by
  have hb := buildOccupiedVoxels_nil slices gridSize ((gridSize : ℚ) * cellSize) h
  have h1 : generateLimbGeometry slices gridSize cellSize = sentinelMesh := by
    simp only [generateLimbGeometry, hb, List.isEmpty_nil, if_true]
  have h2 : generateLimbGeometrySmooth body slices gridSize cellSize inflation
      smoothNormals = sentinelMesh := by
    simp only [generateLimbGeometrySmooth, hb, List.isEmpty_nil, if_true]
  exact ⟨h1, by rw [h1]; rfl, by rw [h1]; rfl, h2, by rw [h2]; rfl, by rw [h2]; rfl⟩

/-- Witness for C1: two all-false slices produce the sentinel meshes. -/
theorem empty_skeleton_sentinel_witness :
    generateLimbGeometry
      [⟨0, 1, [[false, false], [false, false]], "Top"⟩,
       ⟨1, 1 / 2, [[false, false], [false, false]], "Bottom"⟩] 2 1 = sentinelMesh ∧
    (generateLimbGeometry
      [⟨0, 1, [[false, false], [false, false]], "Top"⟩,
       ⟨1, 1 / 2, [[false, false], [false, false]], "Bottom"⟩] 2 1).vertices.length = 1 ∧
    meshTriangles (generateLimbGeometry
      [⟨0, 1, [[false, false], [false, false]], "Top"⟩,
       ⟨1, 1 / 2, [[false, false], [false, false]], "Bottom"⟩] 2 1) = 0 ∧
    generateLimbGeometrySmooth (fun _ _ _ _ _ => sentinelMesh)
      [⟨0, 1, [[false, false], [false, false]], "Top"⟩,
       ⟨1, 1 / 2, [[false, false], [false, false]], "Bottom"⟩] 2 1 0 true = sentinelMesh ∧
    (generateLimbGeometrySmooth (fun _ _ _ _ _ => sentinelMesh)
      [⟨0, 1, [[false, false], [false, false]], "Top"⟩,
       ⟨1, 1 / 2, [[false, false], [false, false]], "Bottom"⟩] 2 1 0 true).vertices.length
      = 1 ∧
    meshTriangles (generateLimbGeometrySmooth (fun _ _ _ _ _ => sentinelMesh)
      [⟨0, 1, [[false, false], [false, false]], "Top"⟩,
       ⟨1, 1 / 2, [[false, false], [false, false]], "Bottom"⟩] 2 1 0 true) = 0 :=
  empty_skeleton_sentinel _ 2 1 0 true (fun _ _ _ _ _ => sentinelMesh) (by decide)

/-- A concrete store state with a cached socket mesh present (over
`G := ℕ`). -/
def sampleState : StoreState ℕ :=
  { slices := []
    limbVisibility := "voxel"
    inflation := 0
    smoothNormals := true
    socket := some 0
    socketThickness := 1 / 2
    socketUseConvexHull := true
    generatedMesh := none
    primitives := []
    selectedPrimitiveId := none
    finalMesh := none }

/-- **C4 counterexample.** `addPrimitive` is a primitive-list change, yet
it leaves the cached socket mesh untouched: starting from a state whose
socket cache is `some 0`, the resulting state still has `some 0`, not
`none`. -/
theorem addPrimitive_keeps_socket_cex :
    (addPrimitive "cube" 0 sampleState).socket = some 0 ∧
    (addPrimitive "cube" 0 sampleState).socket ≠ none := by
  exact ⟨rfl, by simp [addPrimitive, sampleState]⟩

/-- **C4 (amended).** Grid-cell edits (`setSliceCell`) and slice clears
(`clearSlice`) set the cached socket mesh to `null`; socket-config changes
(`setSocketThickness`, `setSocketUseConvexHull`) and primitive-list changes
(`addPrimitive`, `updatePrimitive`, `deletePrimitive`) leave the cached
socket mesh unchanged. -/
theorem socket_cache_invalidation {G : Type} (s : StoreState G) (sliceId : ℤ)
    (row col : ℕ) (value : Bool) (q : ℚ) (b : Bool) (type : String) (now : ℕ)
    (id : String) (u : PrimitiveUpdate) :
    (setSliceCell sliceId row col value s).socket = none ∧
    (clearSlice sliceId s).socket = none ∧
    (setSocketThickness q s).socket = s.socket ∧
    (setSocketUseConvexHull b s).socket = s.socket ∧
    (addPrimitive type now s).socket = s.socket ∧
    (updatePrimitive id u s).socket = s.socket ∧
    (deletePrimitive id s).socket = s.socket :=
  ⟨rfl, rfl, rfl, rfl, rfl, rfl, rfl⟩

/-- A store state already holding a primitive with id `"cube-0"`. -/
def collideState : StoreState ℕ :=
  { sampleState with
    primitives := [newPrimitive "cube" 0]
    selectedPrimitiveId := some "cube-0" }

/-- **C5 counterexample.** `addPrimitive` builds the id from
`Date.now()`; if an existing primitive carries the same type-timestamp id
(two additions in the same millisecond), the new id duplicates it, so the
assigned id is not distinct from every existing primitive's id. -/
theorem addPrimitive_duplicate_id_cex :
    ((addPrimitive "cube" 0 collideState).primitives.map Primitive.id) =
      ["cube-0", "cube-0"] ∧
    ¬ ((addPrimitive "cube" 0 collideState).primitives.map Primitive.id).Nodup := by
  constructor
  · rfl
  · decide

/-- **C5 (amended).** `addPrimitive` appends a primitive with id
`` `${type}-${Date.now()}` `` and selects it; that id is distinct from every
existing primitive's id provided no existing primitive already carries the
same type-timestamp id.  `deletePrimitive` of the selected primitive clears
the selection; deleting a non-selected primitive leaves the selection
unchanged. -/
theorem primitive_lifecycle {G : Type} (s : StoreState G) (type : String) (now : ℕ)
    (id : String) :
    (addPrimitive type now s).selectedPrimitiveId =
      some (type ++ "-" ++ toString now) ∧
    (addPrimitive type now s).primitives = s.primitives ++ [newPrimitive type now] ∧
    ((type ++ "-" ++ toString now) ∉ s.primitives.map Primitive.id →
      ∀ p ∈ s.primitives, p.id ≠ (newPrimitive type now).id) ∧
    (s.selectedPrimitiveId = some id →
      (deletePrimitive id s).selectedPrimitiveId = none) ∧
    (s.selectedPrimitiveId ≠ some id →
      (deletePrimitive id s).selectedPrimitiveId = s.selectedPrimitiveId) := by
  refine ⟨rfl, rfl, ?_, ?_, ?_⟩
  · intro hfresh p hp heq
    have : p.id ∈ s.primitives.map Primitive.id := List.mem_map_of_mem Primitive.id hp
    rw [heq] at this
    exact hfresh this
  · intro hsel
    simp [deletePrimitive, hsel]
  · intro hsel
    simp [deletePrimitive, hsel]

/-- Witness for C5 (amended), at the concrete state `collideState` (whose
selection is `"cube-0"`) and a fresh state. -/
theorem primitive_lifecycle_witness :
    (addPrimitive "sphere" 7 collideState).selectedPrimitiveId = some "sphere-7" ∧
    (deletePrimitive "cube-0" collideState).selectedPrimitiveId = none ∧
    (deletePrimitive "other" collideState).selectedPrimitiveId = some "cube-0" := by
  refine ⟨?_, ?_, ?_⟩
  · exact (primitive_lifecycle collideState "sphere" 7 "x").1
  · exact (primitive_lifecycle collideState "cube" 0 "cube-0").2.2.2.1 rfl
  · exact (primitive_lifecycle collideState "cube" 0 "other").2.2.2.2 (by decide)

/-- The hull of the square [5,5]-[5,15]-[15,15]-[15,5] from the spec's
polygon-fill test case. -/
def squareHull : List Point := [⟨5, 5⟩, ⟨5, 15⟩, ⟨15, 15⟩, ⟨15, 5⟩]

/-- The 110 integer cells with row ∈ [5,14] and col ∈ [5,15], in row-major
order. -/
def squareFillCells : List Point :=
  (List.range 10).flatMap (fun i => (List.range 11).map (fun j => ⟨(5 + i : ℕ), (5 + j : ℕ)⟩))

set_option maxRecDepth 200000 in
unseal Rat.add Rat.mul Rat.sub Rat.inv in
/-- **C6 counterexample.** The claim asserts `fillPolygon` returns all 121
cells with row, col ∈ [5,15]; but cell (15,10) — which the claim includes —
is not returned, and only 110 cells are: the scanline convention
`(p1.row <= row && p2.row > row)` leaves no crossing edge at the hull's
maximal row 15. -/
theorem fillPolygon_square_cex :
    (⟨15, 10⟩ : Point) ∉ fillPolygon squareHull 20 ∧
    (fillPolygon squareHull 20).length = 110 := by
  constructor
  · decide
  · decide

set_option maxRecDepth 200000 in
unseal Rat.add Rat.mul Rat.sub Rat.inv in
/-- **C6 (amended).** For the square hull [5,5]-[5,15]-[15,15]-[15,5] on a
20×20 grid, `fillPolygon` returns exactly the 110 integer cells with
row ∈ [5,14] and col ∈ [5,15] (the half-open scanline convention excludes
the hull's maximal row). -/
theorem fillPolygon_square :
    fillPolygon squareHull 20 = squareFillCells := by
  decide

/-- A conditional fold whose guard never fires is the identity. -/
theorem foldl_ite_skip {α β : Type} (f : α → β → α) (p : β → Bool) (l : List β) (acc : α)
    (h : ∀ x ∈ l, p x = false) :
    l.foldl (fun a x => if p x = true then f a x else a) acc = acc := by
  induction l generalizing acc with
  | nil => rfl
  | cons b t ih =>
    have hb : p b = false := h b (List.mem_cons_self b t)
    simp only [List.foldl_cons, hb]
    exact ih acc (fun x hx => h x (List.mem_cons_of_mem b hx))

/-- A fold over a list on which the function acts as the identity. -/
theorem foldl_id_of {α β : Type} (F : α → β → α) (l : List β) (acc : α)
    (h : ∀ (a : α), ∀ x ∈ l, F a x = a) : l.foldl F acc = acc := by
  induction l generalizing acc with
  | nil => rfl
  | cons b t ih =>
    rw [List.foldl_cons, h acc b (List.mem_cons_self b t)]
    exact ih acc (fun a x hx => h a x (List.mem_cons_of_mem b hx))

/-- The case-1 inner loop of `buildOccupiedVoxels` over a row without
active cells is the identity. -/
theorem innerFold_skip (grid : List (List Bool)) (row : ℕ) (cols : List ℕ) (y : ℚ)
    (acc : List Voxel) (h : ∀ col ∈ cols, gridGet grid row col = false) :
    cols.foldl
      (fun acc2 col =>
        if gridGet grid row col = true then addVoxel acc2 (row : ℚ) (col : ℚ) y else acc2)
      acc = acc :=
  foldl_ite_skip _ _ _ acc h

unseal Rat.add Rat.mul Rat.sub Rat.inv in
theorem jsRound_two : jsRound ((2 : ℕ) : ℚ) = 2 := by decide

unseal Rat.add Rat.mul Rat.sub Rat.inv in
theorem jsRound_three : jsRound ((3 : ℕ) : ℚ) = 3 := by decide

/-- The voxels emitted by the case-1 loop for the cell set {(2,2),(2,3)}. -/
theorem addVoxel_pair (y : ℚ) :
    addVoxel (addVoxel [] ((2 : ℕ) : ℚ) ((2 : ℕ) : ℚ) y) ((2 : ℕ) : ℚ) ((3 : ℕ) : ℚ) y =
      [⟨2, 2, round3 y⟩, ⟨2, 3, round3 y⟩] := by
  simp only [addVoxel, jsRound_two, jsRound_three, List.not_mem_nil, if_false,
    List.nil_append, List.mem_singleton]
  rw [if_neg (by simp)]
  rfl

/-- The single-active-slice skeleton for the active cell set
{(2,2),(2,3)}: exactly the two cells, at the rounded scaled height. -/
theorem buildOccupiedVoxels_single (slices : List Slice) (s0 : Slice) (gridSize : ℕ)
    (heightScale : ℚ)
    (hfilter : slices.filter (fun s => hasContent s) = [s0])
    (hcells : ∀ r c : ℕ, gridGet s0.grid r c = true ↔ (r = 2 ∧ c = 2) ∨ (r = 2 ∧ c = 3))
    (hgs : 4 ≤ gridSize) :
    buildOccupiedVoxels slices gridSize heightScale =
      [⟨2, 2, round3 (s0.height * heightScale)⟩,
       ⟨2, 3, round3 (s0.height * heightScale)⟩] := by
  have hsorted : (slices.insertionSort heightGe).filter (fun s => hasContent s) = [s0] :=
    List.perm_singleton.mp
      (((List.perm_insertionSort heightGe slices).filter _).trans (hfilter ▸ List.Perm.refl _))
  have hrow_ne : ∀ row : ℕ, row ≠ 2 → ∀ col, gridGet s0.grid row col = false := by
    intro row hrow col
    cases hg : gridGet s0.grid row col with
    | false => rfl
    | true =>
      exact absurd ((hcells row col).mp hg) (by rintro (⟨h2, _⟩ | ⟨h2, _⟩) <;> exact hrow h2)
  have hcol_ne : ∀ col : ℕ, col ≠ 2 → col ≠ 3 → gridGet s0.grid 2 col = false := by
    intro col h2 h3
    cases hg : gridGet s0.grid 2 col with
    | false => rfl
    | true =>
      exact absurd ((hcells 2 col).mp hg)
        (by rintro (⟨_, hc⟩ | ⟨_, hc⟩) <;> [exact h2 hc; exact h3 hc])
  simp only [buildOccupiedVoxels, hsorted]
  rw [if_neg (by simp), dif_pos (show ([s0] : List Slice).length = 1 from rfl)]
  show (List.range gridSize).foldl
      (fun acc row => (List.range gridSize).foldl
        (fun acc2 col =>
          if gridGet s0.grid row col = true then
            addVoxel acc2 (row : ℚ) (col : ℚ) (s0.height * heightScale) else acc2)
        acc)
      [] = _
  set y := s0.height * heightScale with hy
  have hrow2 : ∀ acc : List Voxel,
      (List.range gridSize).foldl
        (fun acc2 col =>
          if gridGet s0.grid 2 col = true then
            addVoxel acc2 ((2 : ℕ) : ℚ) (col : ℚ) y else acc2)
        acc =
      addVoxel (addVoxel acc ((2 : ℕ) : ℚ) ((2 : ℕ) : ℚ) y) ((2 : ℕ) : ℚ) ((3 : ℕ) : ℚ) y := by
    intro acc
    obtain ⟨k, hk⟩ : ∃ k, gridSize = 4 + k := ⟨gridSize - 4, by omega⟩
    rw [hk, List.range_add, List.foldl_append]
    rw [show List.range 4 = [0, 1, 2, 3] from rfl]
    simp only [List.foldl_cons, List.foldl_nil]
    have h20 : gridGet s0.grid 2 0 = false := hcol_ne 0 (by omega) (by omega)
    have h21 : gridGet s0.grid 2 1 = false := hcol_ne 1 (by omega) (by omega)
    have h22 : gridGet s0.grid 2 2 = true := (hcells 2 2).mpr (Or.inl ⟨rfl, rfl⟩)
    have h23 : gridGet s0.grid 2 3 = true := (hcells 2 3).mpr (Or.inr ⟨rfl, rfl⟩)
    simp only [h20, h21, h22, h23, Bool.false_eq_true, if_false, eq_self_iff_true, if_true]
    exact innerFold_skip _ _ _ _ _ (by
      intro col hcol
      simp only [List.mem_map, List.mem_range] at hcol
      obtain ⟨x, _, rfl⟩ := hcol
      exact hcol_ne (4 + x) (by omega) (by omega))
  have houter : ∀ (rows : List ℕ) (acc : List Voxel), (∀ r ∈ rows, r ≠ 2) →
      rows.foldl
        (fun acc row => (List.range gridSize).foldl
          (fun acc2 col =>
            if gridGet s0.grid row col = true then
              addVoxel acc2 (row : ℚ) (col : ℚ) y else acc2)
          acc)
        acc = acc := by
    intro rows acc hrows
    exact foldl_id_of _ _ _ (fun a r hr => innerFold_skip _ _ _ _ _
      (fun col _ => hrow_ne r (hrows r hr) col))
  obtain ⟨k, hk⟩ : ∃ k, gridSize = 4 + k := ⟨gridSize - 4, by omega⟩
  have hsplit : List.range gridSize = [0, 1, 2, 3] ++ (List.range k).map (fun x => 4 + x) := by
    rw [hk, List.range_add]
    rfl
  nth_rewrite 2 [hsplit]
  rw [List.foldl_append]
  simp only [List.foldl_cons, List.foldl_nil]
  rw [innerFold_skip _ _ _ _ _ (fun col _ => hrow_ne 0 (by omega) col),
    innerFold_skip _ _ _ _ _ (fun col _ => hrow_ne 1 (by omega) col),
    hrow2 []]
  rw [innerFold_skip _ _ _ _ _ (fun col _ => hrow_ne 3 (by omega) col)]
  rw [houter ((List.range k).map (fun x => 4 + x)) _ (by
    intro r hr
    simp only [List.mem_map, List.mem_range] at hr
    obtain ⟨x, _, rfl⟩ := hr
    omega)]
  exact addVoxel_pair y

unseal Rat.add Rat.mul Rat.sub Rat.inv in
/-- **C9 counterexample.** One active slice with cells {(2,2),(2,3)},
height 1/3 and height scale 1: the claim places the two skeleton points at
`height * heightScale = 1/3`, but `addVoxel` stores the height rounded to 3
decimal places, so the skeleton holds `0.333`, not `1/3`. -/
theorem voxelLoft_rounded_height_cex :
    (⟨2, 2, (1 : ℚ) / 3⟩ : Voxel) ∉
      buildOccupiedVoxels [⟨0, 1 / 3, [[], [], [false, false, true, true]], "s"⟩] 5 1 ∧
    buildOccupiedVoxels [⟨0, 1 / 3, [[], [], [false, false, true, true]], "s"⟩] 5 1 =
      [⟨2, 2, 333 / 1000⟩, ⟨2, 3, 333 / 1000⟩] := by
  constructor
  · decide
  · decide

/-- **C9 (amended).** For a slice set in which exactly one slice has any
true cell, with active cells exactly {(2,2),(2,3)} (and a grid size of at
least 4), the voxel skeleton is exactly those 2 points, each at the slice's
height multiplied by the height-scale factor **rounded to 3 decimal
places** (the skeleton's `addVoxel` rounding), with no interpolated
intermediate points. -/
theorem voxelLoft_single_slice (slices : List Slice) (s0 : Slice) (gridSize : ℕ)
    (heightScale : ℚ)
    (hfilter : slices.filter (fun s => hasContent s) = [s0])
    (hcells : ∀ r c : ℕ, gridGet s0.grid r c = true ↔ (r = 2 ∧ c = 2) ∨ (r = 2 ∧ c = 3))
    (hgs : 4 ≤ gridSize) :
    buildOccupiedVoxels slices gridSize heightScale =
      [⟨2, 2, round3 (s0.height * heightScale)⟩,
       ⟨2, 3, round3 (s0.height * heightScale)⟩] :=
  buildOccupiedVoxels_single slices s0 gridSize heightScale hfilter hcells hgs

unseal Rat.add Rat.mul Rat.sub Rat.inv in
/-- Witness for C9 (amended): a concrete single-slice input. -/
theorem voxelLoft_single_slice_witness :
    buildOccupiedVoxels [⟨0, 1 / 2, [[], [], [false, false, true, true]], "s"⟩] 5 2 =
      [⟨2, 2, round3 (1 / 2 * 2)⟩, ⟨2, 3, round3 (1 / 2 * 2)⟩] :=
  voxelLoft_single_slice _ ⟨0, 1 / 2, [[], [], [false, false, true, true]], "s"⟩ 5 2
    (by decide)
    (by
      intro r c
      match r, c with
      | 0, c => simp [gridGet]
      | 1, c => simp [gridGet]
      | 2, 0 => simp [gridGet]
      | 2, 1 => simp [gridGet]
      | 2, 2 => simp [gridGet]
      | 2, 3 => simp [gridGet]
      | 2, (n + 4) =>
        have h4 : ([false, false, true, true] : List Bool).getD (n + 4) false = false :=
          List.getD_eq_default _ _ (by simp)
        simp [gridGet, h4]
      | (n + 3), c =>
        have h3 : ([[], [], [false, false, true, true]] :
            List (List Bool)).getD (n + 3) [] = [] :=
          List.getD_eq_default _ _ (by simp)
        simp [gridGet, h3])
    (by omega)

/-- **C2.** `generateSocket` on a limb geometry with fewer than 4 position
entries returns the explicit "insufficient data" result — `null` plus the
"Not enough points" warning — without crashing; with 4 or more vertices
that failure branch is never taken (the result is never `null`). -/
theorem generateSocket_insufficient {M : Type} (env : SocketEnv M) (g : LimbGeomM M)
    (pts : List Vec3) (thickness : ℝ) (useConvexHull : Bool)
    (primitives : List Primitive) (hpos : g.position = some pts) :
    (pts.length < 4 →
      generateSocket env (some g) thickness useConvexHull primitives =
        .ok (none, [SocketWarning.notEnoughPoints])) ∧
    (4 ≤ pts.length →
      ∀ ws, generateSocket env (some g) thickness useConvexHull primitives ≠
        .ok (none, ws)) := by
  constructor
  · intro hlt
    simp only [generateSocket, hpos]
    rw [if_pos hlt]
  · intro hge ws
    simp only [generateSocket, hpos]
    rw [if_neg (by omega)]
    cases h1 : env.csgSubtract (env.mkMesh (env.convexGeometry (expandPoints pts thickness)))
        (env.mkMesh (if useConvexHull then env.convexGeometry pts
          else env.cloneGeometry g.handle)) with
    | none => simp
    | some shell0 =>
      split
      · simp
      · split <;> simp

/-- A trivial THREE/CSG environment over `Unit` meshes. -/
noncomputable def trivEnv : SocketEnv Unit :=
  { convexGeometry := fun _ => ()
    cloneGeometry := fun m => m
    mkMesh := fun m => m
    csgUnion := fun _ _ => some ()
    csgSubtract := fun _ _ => some ()
    csgIntersect := fun _ _ => some ()
    sphereGeometry := fun _ _ _ => ()
    boxGeometry := fun _ _ _ => ()
    cylinderGeometry := fun _ _ _ _ => ()
    setPosition := fun m _ => m
    setScale := fun m _ => m
    boundingBox := fun _ => (⟨0, 0, 0⟩, ⟨0, 0, 0⟩)
    geometryOf := fun m => m
    computeVertexNormals := fun m => m }

/-- Witness for C2: an empty position list (0 < 4 vertices) yields the
explicit insufficient-data result. -/
theorem generateSocket_insufficient_witness :
    generateSocket trivEnv (some ⟨(), some []⟩) 1 true [] =
      .ok (none, [SocketWarning.notEnoughPoints]) :=
  (generateSocket_insufficient trivEnv ⟨(), some []⟩ [] 1 true [] rfl).1 (by decide)

/-- `primitiveStep` on a throwing operation: the shell is unchanged and the
warning names the primitive. -/
theorem primitiveStep_of_throws {M : Type} (env : SocketEnv M) (shell : M)
    (p : Primitive) (h : csgOpThrows env shell p) :
    primitiveStep env shell p = (shell, some (.csgFailed p.id)) := by
  rcases h with ⟨hop, hnone⟩ | ⟨hop, hnone⟩ | ⟨hop, hnone⟩ <;>
    simp only [primitiveStep, hop, hnone]

/-- The primitive loop composes sequentially over list concatenation: the
second block starts from the shell the first block produced, and the
warnings concatenate in order. -/
theorem applyPrimitives_append {M : Type} (env : SocketEnv M) (l1 l2 : List Primitive)
    (shell : M) :
    applyPrimitives env (l1 ++ l2) shell =
      ((applyPrimitives env l2 (applyPrimitives env l1 shell).1).1,
        (applyPrimitives env l1 shell).2 ++
          (applyPrimitives env l2 (applyPrimitives env l1 shell).1).2) := by
  induction l1 generalizing shell with
  | nil => simp [applyPrimitives]
  | cons q t ih =>
    simp only [List.cons_append, applyPrimitives, List.append_eq]
    rw [ih]
    simp [List.append_assoc]

/-- **C3.** In `generateSocket`'s primitive loop, operations apply
sequentially in list order against the cumulative shell; when the boolean
operation of a primitive `p` (placed anywhere in the list) throws, the loop
does not abort: the shell handed to the remaining primitives is exactly the
shell accumulated before `p` (atomicity on error), a warning naming `p.id`
is surfaced between the earlier and later warnings, and all remaining
primitives are still processed. -/
theorem applyPrimitives_skip_on_failure {M : Type} (env : SocketEnv M)
    (pre post : List Primitive) (p : Primitive) (shell : M)
    (hthrows : csgOpThrows env (applyPrimitives env pre shell).1 p) :
    applyPrimitives env (pre ++ p :: post) shell =
      ((applyPrimitives env post (applyPrimitives env pre shell).1).1,
        (applyPrimitives env pre shell).2 ++
          SocketWarning.csgFailed p.id ::
            (applyPrimitives env post (applyPrimitives env pre shell).1).2) := by
  rw [applyPrimitives_append]
  have hstep := primitiveStep_of_throws env (applyPrimitives env pre shell).1 p hthrows
  show (((applyPrimitives env (p :: post) (applyPrimitives env pre shell).1).1), _) = _
  simp only [applyPrimitives, hstep]
  simp

/-- A CSG environment over `ℕ` meshes whose `union` always throws and whose
`subtract` increments the shell. -/
noncomputable def cexEnv : SocketEnv ℕ :=
  { convexGeometry := fun _ => 0
    cloneGeometry := fun m => m
    mkMesh := fun m => m
    csgUnion := fun _ _ => none
    csgSubtract := fun m _ => some (m + 1)
    csgIntersect := fun m _ => some m
    sphereGeometry := fun _ _ _ => 0
    boxGeometry := fun _ _ _ => 0
    cylinderGeometry := fun _ _ _ _ => 0
    setPosition := fun m _ => m
    setScale := fun m _ => m
    boundingBox := fun _ => (⟨0, 0, 0⟩, ⟨0, 0, 0⟩)
    geometryOf := fun m => m
    computeVertexNormals := fun m => m }

/-- Witness for C3: primitive "a" (union) throws and is skipped with a
warning, while primitive "b" (subtract) is still applied to the unchanged
shell. -/
theorem applyPrimitives_skip_witness :
    applyPrimitives cexEnv
      [⟨"a", "cube", (0, 0, 0), (1, 1, 1), "union"⟩,
       ⟨"b", "cube", (0, 0, 0), (1, 1, 1), "subtract"⟩] 0 =
      (1, [SocketWarning.csgFailed "a"]) := by
  have h := applyPrimitives_skip_on_failure cexEnv []
    [⟨"b", "cube", (0, 0, 0), (1, 1, 1), "subtract"⟩]
    ⟨"a", "cube", (0, 0, 0), (1, 1, 1), "union"⟩ 0 (Or.inl ⟨rfl, rfl⟩)
  simp only [List.nil_append] at h
  rw [h]
  simp [applyPrimitives, primitiveStep, createPrimitiveMesh, cexEnv]

/-- Distance between two THREE vectors. -/
noncomputable def dist3 (a b : Vec3) : ℝ := vlength (vsub a b)

theorem vlength_eq_zero_iff (v : Vec3) : vlength v = 0 ↔ v = ⟨0, 0, 0⟩ := by
  unfold vlength
  rw [Real.sqrt_eq_zero (by positivity)]
  constructor
  · intro h
    have hx : v.x = 0 := by nlinarith [sq_nonneg v.x, sq_nonneg v.y, sq_nonneg v.z]
    have hy : v.y = 0 := by nlinarith [sq_nonneg v.x, sq_nonneg v.y, sq_nonneg v.z]
    have hz : v.z = 0 := by nlinarith [sq_nonneg v.x, sq_nonneg v.y, sq_nonneg v.z]
    cases v
    simp_all
  · intro h
    rw [h]
    norm_num

theorem vlength_smul (t : ℝ) (v : Vec3) : vlength (vsmul t v) = |t| * vlength v := by
  unfold vlength vsmul
  rw [show (t * v.x) ^ 2 + (t * v.y) ^ 2 + (t * v.z) ^ 2 =
      t ^ 2 * (v.x ^ 2 + v.y ^ 2 + v.z ^ 2) from by ring,
    Real.sqrt_mul (sq_nonneg t), Real.sqrt_sq_eq_abs]

/-- **C8 counterexample.** For the one-point list `[(0,0,0)]` and thickness
`T = 1 > 0`, the point coincides with the centroid: `normalize` leaves the
zero direction vector unchanged (THREE's `length() || 1`), so `expandPoints`
returns the point unmoved and its distance from the centroid is not `T`
greater — refuting the claim for arbitrary nonempty point lists. -/
theorem expandPoints_centroid_cex :
    expandPoints [⟨0, 0, 0⟩] 1 = [⟨0, 0, 0⟩] ∧
    ¬ (dist3 ((expandPoints [⟨0, 0, 0⟩] 1).getD 0 ⟨0, 0, 0⟩) (vcentroid [⟨0, 0, 0⟩]) ≥
        dist3 (⟨0, 0, 0⟩ : Vec3) (vcentroid [⟨0, 0, 0⟩]) + 1) := by
  have hc : vcentroid [(⟨0, 0, 0⟩ : Vec3)] = ⟨0, 0, 0⟩ := by
    simp [vcentroid, vadd, vsmul]
  have hsub : vsub (⟨0, 0, 0⟩ : Vec3) ⟨0, 0, 0⟩ = ⟨0, 0, 0⟩ := by
    simp [vsub]
  have hlen : vlength (⟨0, 0, 0⟩ : Vec3) = 0 := (vlength_eq_zero_iff _).mpr rfl
  have hexp : expandPoints [⟨0, 0, 0⟩] 1 = [⟨0, 0, 0⟩] := by
    simp only [expandPoints, List.map_cons, List.map_nil, hc, hsub]
    rw [vnormalize, hlen]
    norm_num [vsmul, vadd]
  refine ⟨hexp, ?_⟩
  rw [hexp, hc]
  simp only [List.getD, dist3, hsub]
  rw [show ([(⟨0, 0, 0⟩ : Vec3)].get? 0).getD ⟨0, 0, 0⟩ = ⟨0, 0, 0⟩ from rfl]
  rw [hsub, hlen]
  norm_num

/-- **C8 (amended).** For every point list, thickness `T > 0`, and index
`i` whose point `p` differs from the centroid, `expandPoints` maps `p` to
`p + T · normalize(p − centroid)`, and the output point's distance from the
centroid is exactly `T` greater than `p`'s (a point equal to the centroid
is left unmoved by the zero-direction `normalize`, hence the `p ≠ centroid`
hypothesis). -/
theorem expandPoints_expands (points : List Vec3) (T : ℝ) (hT : 0 < T)
    (i : ℕ) (hi : i < points.length)
    (hne : points.get ⟨i, hi⟩ ≠ vcentroid points) :
    (expandPoints points T).getD i ⟨0, 0, 0⟩ =
      vadd (points.get ⟨i, hi⟩)
        (vsmul T (vnormalize (vsub (points.get ⟨i, hi⟩) (vcentroid points)))) ∧
    dist3 ((expandPoints points T).getD i ⟨0, 0, 0⟩) (vcentroid points) =
      dist3 (points.get ⟨i, hi⟩) (vcentroid points) + T := by
  have hext : ∀ {a b : Vec3}, a.x = b.x → a.y = b.y → a.z = b.z → a = b := by
    intro a b hx hy hz
    cases a
    cases b
    simp_all
  have hmap : (expandPoints points T).getD i ⟨0, 0, 0⟩ =
      vadd (points.get ⟨i, hi⟩)
        (vsmul T (vnormalize (vsub (points.get ⟨i, hi⟩) (vcentroid points)))) := by
    simp only [expandPoints, List.getD, List.get?_map, List.get?_eq_get hi, Option.map_some',
      Option.getD_some]
  refine ⟨hmap, ?_⟩
  rw [hmap]
  have hvne : vsub (points.get ⟨i, hi⟩) (vcentroid points) ≠ ⟨0, 0, 0⟩ := by
    intro h0
    apply hne
    have hx : (points.get ⟨i, hi⟩).x - (vcentroid points).x = 0 := congrArg Vec3.x h0
    have hy : (points.get ⟨i, hi⟩).y - (vcentroid points).y = 0 := congrArg Vec3.y h0
    have hz : (points.get ⟨i, hi⟩).z - (vcentroid points).z = 0 := congrArg Vec3.z h0
    exact hext (by linarith) (by linarith) (by linarith)
  have hL0 : vlength (vsub (points.get ⟨i, hi⟩) (vcentroid points)) ≠ 0 :=
    fun h => hvne ((vlength_eq_zero_iff _).mp h)
  have hLpos : 0 < vlength (vsub (points.get ⟨i, hi⟩) (vcentroid points)) :=
    lt_of_le_of_ne (Real.sqrt_nonneg _) (Ne.symm hL0)
  have hnorm : vnormalize (vsub (points.get ⟨i, hi⟩) (vcentroid points)) =
      vsmul (1 / vlength (vsub (points.get ⟨i, hi⟩) (vcentroid points)))
        (vsub (points.get ⟨i, hi⟩) (vcentroid points)) := by
    rw [vnormalize, if_neg hL0]
  have hshift : vsub (vadd (points.get ⟨i, hi⟩)
        (vsmul T (vnormalize (vsub (points.get ⟨i, hi⟩) (vcentroid points)))))
        (vcentroid points) =
      vsmul (1 + T / vlength (vsub (points.get ⟨i, hi⟩) (vcentroid points)))
        (vsub (points.get ⟨i, hi⟩) (vcentroid points)) := by
    rw [hnorm]
    refine hext ?_ ?_ ?_
    · show (points.get ⟨i, hi⟩).x + T * (1 / _ * ((points.get ⟨i, hi⟩).x - _)) - _ = _
      simp only [vsub, vadd, vsmul]
      ring
    · simp only [vsub, vadd, vsmul]
      ring
    · simp only [vsub, vadd, vsmul]
      ring
  rw [dist3, hshift, vlength_smul, dist3]
  rw [abs_of_pos (by positivity)]
  rw [add_mul, one_mul, div_mul_cancel₀ _ hL0]

/-- Witness for C8 (amended): the first of two opposite unit points with
thickness 2 moves to distance `1 + 2` from the centroid. -/
theorem expandPoints_expands_witness :
    (expandPoints [⟨1, 0, 0⟩, ⟨-1, 0, 0⟩] 2).getD 0 ⟨0, 0, 0⟩ =
      vadd (([⟨1, 0, 0⟩, ⟨-1, 0, 0⟩] : List Vec3).get ⟨0, by norm_num⟩)
        (vsmul 2 (vnormalize (vsub (([⟨1, 0, 0⟩, ⟨-1, 0, 0⟩] : List Vec3).get ⟨0, by norm_num⟩)
          (vcentroid [⟨1, 0, 0⟩, ⟨-1, 0, 0⟩])))) ∧
    dist3 ((expandPoints [⟨1, 0, 0⟩, ⟨-1, 0, 0⟩] 2).getD 0 ⟨0, 0, 0⟩)
        (vcentroid [⟨1, 0, 0⟩, ⟨-1, 0, 0⟩]) =
      dist3 (([⟨1, 0, 0⟩, ⟨-1, 0, 0⟩] : List Vec3).get ⟨0, by norm_num⟩)
        (vcentroid [⟨1, 0, 0⟩, ⟨-1, 0, 0⟩]) + 2 :=
  expandPoints_expands [⟨1, 0, 0⟩, ⟨-1, 0, 0⟩] 2 (by norm_num) 0 (by norm_num)
    (by
      have hc : vcentroid [(⟨1, 0, 0⟩ : Vec3), ⟨-1, 0, 0⟩] = ⟨0, 0, 0⟩ := by
        norm_num [vcentroid, vadd, vsmul]
      rw [hc]
      intro h
      have := congrArg Vec3.x h
      norm_num at this)

/-! ## Correctness of the Graham scan (`getConvexHull`)

The scan is verified through an invariant on the half-hull chains: along
the processed prefix, the (reversed) chain is strictly decreasing in the
sort order, makes only strict left turns, and every processed point lies on
the non-negative side of every chain edge.  The upper chain is obtained
from the lower one by negating both coordinates. -/

theorem lexLt_trans {a b c : Point} (h1 : lexLt a b) (h2 : lexLt b c) : lexLt a c := by
  rcases h1 with h1 | ⟨h1, h1r⟩ <;> rcases h2 with h2 | ⟨h2, h2r⟩
  · exact Or.inl (lt_trans h1 h2)
  · exact Or.inl (h2 ▸ h1)
  · exact Or.inl (h1 ▸ h2)
  · exact Or.inr ⟨h1.trans h2, lt_trans h1r h2r⟩

theorem lexLt_irrefl (a : Point) : ¬ lexLt a a := by
  rintro (h | ⟨-, h⟩) <;> exact lt_irrefl _ h

theorem lexLt_ne {a b : Point} (h : lexLt a b) : a ≠ b := by
  rintro rfl
  exact lexLt_irrefl a h

theorem lexLt_col_le {a b : Point} (h : lexLt a b) : a.col ≤ b.col := by
  rcases h with h | ⟨h, -⟩
  · exact le_of_lt h
  · exact le_of_eq h

theorem lexLe_col_le {a b : Point} (h : lexLe a b) : a.col ≤ b.col := by
  rcases h with h | ⟨h, -⟩
  · exact le_of_lt h
  · exact le_of_eq h

theorem lexLt_of_lexLe_ne {a b : Point} (h : lexLe a b) (hne : a ≠ b) : lexLt a b := by
  rcases h with h | ⟨hc, hr⟩
  · exact Or.inl h
  · rcases lt_or_eq_of_le hr with h | h
    · exact Or.inr ⟨hc, h⟩
    · exact absurd (by cases a; cases b; simp_all) hne

instance : IsTrans Point lexLe :=
  ⟨by
    intro a b c h1 h2
    rcases h1 with h1 | ⟨h1, h1r⟩ <;> rcases h2 with h2 | ⟨h2, h2r⟩
    · exact Or.inl (lt_trans h1 h2)
    · exact Or.inl (h2 ▸ h1)
    · exact Or.inl (h1 ▸ h2)
    · exact Or.inr ⟨h1.trans h2, le_trans h1r h2r⟩⟩

instance : IsTotal Point lexLe :=
  ⟨by
    intro a b
    rcases lt_trichotomy a.col b.col with h | h | h
    · exact Or.inl (Or.inl h)
    · rcases le_total a.row b.row with hr | hr
      · exact Or.inl (Or.inr ⟨h, hr⟩)
      · exact Or.inr (Or.inr ⟨h.symm, hr⟩)
    · exact Or.inr (Or.inl h)⟩

theorem cross_swap (o a b : Point) : cross o b a = -cross o a b := by
  unfold cross
  ring

theorem cross_cyclic (o a b : Point) : cross a b o = cross o a b := by
  unfold cross
  ring

theorem cross_self_right (o a : Point) : cross o a a = 0 := by
  unfold cross
  ring

/-- The universal four-point determinant identity underlying all the turn
transitivity lemmas. -/
theorem cross_id (u v w p : Point) :
    cross u v p * (w.col - v.col) =
      cross u v w * (p.col - v.col) + cross v w p * (v.col - u.col) := by
  unfold cross
  ring

/-- The three-lines-through-`q` identity. -/
theorem cross_id_q (t b c q : Point) :
    cross t q c * (q.col - b.col) =
      cross t q b * (q.col - c.col) + cross b q c * (q.col - t.col) := by
  unfold cross
  ring

/-- The pop identity: positions of `p` relative to edge `(a, q)` in terms
of edge `(a, b)`. -/
theorem cross_id_pop (a b q p : Point) :
    cross a q p * (b.col - a.col) =
      cross a b p * (q.col - a.col) - cross a b q * (p.col - a.col) := by
  unfold cross
  ring

/-- A strict left turn with increasing scan order forces the first edge to
advance in `col`. -/
theorem col_lt_of_cross_pos {u v w : Point} (huv : lexLt u v) (hvw : v.col ≤ w.col)
    (h : 0 < cross u v w) : u.col < v.col := by
  rcases huv with h1 | ⟨h1, h2⟩
  · exact h1
  · exfalso
    unfold cross at h
    have h0 : v.col - u.col = 0 := by linarith
    nlinarith [mul_eq_zero_of_left h0 (w.row - u.row),
      mul_nonneg (show (0 : ℚ) ≤ v.row - u.row by linarith)
        (show (0 : ℚ) ≤ w.col - u.col by linarith)]

/-- Walking the positivity of the top edge down the chain. -/
theorem lemA {u v w q : Point} (huv : lexLt u v) (hvw : lexLt v w) (hwq : lexLt w q)
    (h1 : 0 < cross u v w) (h2 : 0 < cross v w q) : 0 < cross u v q := by
  have hvwc := lexLt_col_le hvw
  have hwqc := lexLt_col_le hwq
  have huvc : u.col < v.col := col_lt_of_cross_pos huv hvwc h1
  have hvwc' : v.col < w.col := col_lt_of_cross_pos hvw hwqc h2
  nlinarith [cross_id u v w q, mul_pos h1 (show (0 : ℚ) < q.col - v.col by linarith),
    mul_pos h2 (show (0 : ℚ) < v.col - u.col by linarith)]

/-- Advancing a supporting edge one step up the chain keeps a point with
smaller `col` on the non-negative side. -/
theorem lemB {u v w p : Point} (huv : lexLt u v) (hvw : lexLt v w)
    (h1 : 0 < cross u v w) (hp : 0 ≤ cross u v p) (hpc : p.col ≤ v.col) :
    0 ≤ cross v w p := by
  have hvwc := lexLt_col_le hvw
  have huvc : u.col < v.col := col_lt_of_cross_pos huv hvwc h1
  nlinarith [cross_id u v w p,
    mul_nonneg hp (show (0 : ℚ) ≤ w.col - v.col by linarith),
    mul_nonneg (le_of_lt h1) (show (0 : ℚ) ≤ v.col - p.col by linarith)]

/-- Points above two chords through `q` are above the longer chord. -/
theorem lemC {t b p q : Point} (htq : lexLt t q) (hbq : lexLt b q) (hpq : p.col ≤ q.col)
    (h1 : 0 ≤ cross t q b) (h2 : 0 ≤ cross b q p) : 0 ≤ cross t q p := by
  have htqc := lexLt_col_le htq
  have hbqc := lexLt_col_le hbq
  rcases lt_or_eq_of_le hbqc with hbc | hbc
  · nlinarith [cross_id_q t b p q,
      mul_nonneg h1 (show (0 : ℚ) ≤ q.col - p.col by linarith),
      mul_nonneg h2 (show (0 : ℚ) ≤ q.col - t.col by linarith)]
  · have hbrow : b.row < q.row := by
      rcases hbq with hx | ⟨-, hx⟩
      · exact absurd hbc (ne_of_lt hx)
      · exact hx
    have hΔ : t.col = q.col := by
      by_contra hne
      have hΔpos : 0 < q.col - t.col := by
        rcases lt_or_eq_of_le htqc with h | h
        · linarith
        · exact absurd h hne
      unfold cross at h1
      have e2 : (q.row - t.row) * (b.col - t.col) = (q.row - t.row) * (q.col - t.col) := by
        rw [show b.col - t.col = q.col - t.col from by linarith]
      have e3 : (q.col - t.col) * (b.row - t.row) - (q.row - t.row) * (q.col - t.col) =
          (q.col - t.col) * (b.row - q.row) := by ring
      nlinarith [mul_pos hΔpos (show (0 : ℚ) < q.row - b.row by linarith)]
    have htrow : t.row < q.row := by
      rcases htq with hx | ⟨-, hx⟩
      · exact absurd hΔ (ne_of_lt hx)
      · exact hx
    unfold cross
    have h0 : q.col - t.col = 0 := by linarith
    nlinarith [mul_eq_zero_of_left h0 (p.row - t.row),
      mul_nonneg (show (0 : ℚ) ≤ q.row - t.row by linarith)
        (show (0 : ℚ) ≤ t.col - p.col by linarith)]

/-- A popped point stays on the non-negative side of the chord from the
pop edge's lower endpoint to `q`. -/
theorem lemD {a b p q : Point} (hab : lexLt a b) (hbq : lexLt b q)
    (hp : 0 ≤ cross a b p) (hq : cross a b q ≤ 0)
    (hpc : a.col < p.col) (hpc2 : p.col ≤ b.col) : 0 ≤ cross a q p := by
  have hbqc := lexLt_col_le hbq
  have habc : a.col < b.col := lt_of_lt_of_le hpc hpc2
  nlinarith [cross_id_pop a b q p,
    mul_nonneg hp (show (0 : ℚ) ≤ q.col - a.col by linarith),
    mul_nonneg (neg_nonneg.mpr hq) (show (0 : ℚ) ≤ p.col - a.col by linarith)]

/-- A point lexicographically above the chain bottom on the same vertical
is on the non-negative side of any chord leaving the bottom rightward. -/
theorem lemE {t p q : Point} (htp : lexLe t p) (hpc : p.col = t.col) (htq : lexLt t q) :
    0 ≤ cross t q p := by
  have htqc := lexLt_col_le htq
  have hrow : t.row ≤ p.row := by
    rcases htp with hx | ⟨-, hx⟩
    · exact absurd (hpc ▸ hx) (lt_irrefl _)
    · exact hx
  unfold cross
  have h0 : p.col - t.col = 0 := by linarith
  nlinarith [mul_eq_zero_of_right (q.row - t.row) h0,
    mul_nonneg (show (0 : ℚ) ≤ q.col - t.col by linarith)
      (show (0 : ℚ) ≤ p.row - t.row by linarith)]

instance : Inhabited Point := ⟨⟨0, 0⟩⟩

/-- The reversed chain is strictly decreasing in the scan order (the JS
array is strictly increasing). -/
def DecrChain (l : List Point) : Prop := List.Chain' (fun a b => lexLt b a) l

/-- Every consecutive chain triple is a strict left turn; the list is the
reversed chain, so `[w, v, u, ...]` corresponds to the turn `u → v → w`. -/
def Convex3 : List Point → Prop
  | w :: v :: u :: rest => 0 < cross u v w ∧ Convex3 (v :: u :: rest)
  | _ => True

/-- `p` lies on the non-negative side of every edge of the reversed
chain (pairs `b :: a :: _` are the directed edges `a → b`). -/
def EdgesOK (p : Point) : List Point → Prop
  | b :: a :: rest => 0 ≤ cross a b p ∧ EdgesOK p (a :: rest)
  | _ => True

/-- Forward version of `EdgesOK`, over the chain in JS array order. -/
def FEdges (p : Point) : List Point → Prop
  | u :: v :: rest => 0 ≤ cross u v p ∧ FEdges p (v :: rest)
  | _ => True

theorem Convex3_tail {x : Point} {l : List Point} (h : Convex3 (x :: l)) : Convex3 l := by
  match l with
  | [] => trivial
  | [a] => trivial
  | a :: b :: t => exact h.2

theorem EdgesOK_tail {p x : Point} {l : List Point} (h : EdgesOK p (x :: l)) :
    EdgesOK p l := by
  match l with
  | [] => trivial
  | a :: t => exact h.2

theorem FEdges_tail {p x : Point} {l : List Point} (h : FEdges p (x :: l)) :
    FEdges p l := by
  match l with
  | [] => trivial
  | a :: t => exact h.2

theorem Convex3_suffix {l₁ l₂ : List Point} (hs : l₁ <:+ l₂) (h : Convex3 l₂) :
    Convex3 l₁ := by
  obtain ⟨t, rfl⟩ := hs
  induction t with
  | nil => exact h
  | cons x t ih => exact ih (Convex3_tail h)

theorem EdgesOK_suffix {p : Point} {l₁ l₂ : List Point} (hs : l₁ <:+ l₂)
    (h : EdgesOK p l₂) : EdgesOK p l₁ := by
  obtain ⟨t, rfl⟩ := hs
  induction t with
  | nil => exact h
  | cons x t ih => exact ih (EdgesOK_tail h)

theorem popPhase_suffix (rc : List Point) (q : Point) : popPhase rc q <:+ rc := by
  match rc with
  | [] => exact List.suffix_rfl
  | [x] => exact List.suffix_rfl
  | b :: a :: rest =>
    rw [popPhase]
    split
    · exact (popPhase_suffix (a :: rest) q).trans (List.suffix_cons b (a :: rest))
    · exact List.suffix_rfl

theorem popPhase_ne_nil (rc : List Point) (q : Point) (h : rc ≠ []) :
    popPhase rc q ≠ [] := by
  match rc with
  | [] => exact absurd rfl h
  | [x] => simp [popPhase]
  | b :: a :: rest =>
    rw [popPhase]
    split
    · exact popPhase_ne_nil (a :: rest) q (by simp)
    · simp

theorem popPhase_getLast? (rc : List Point) (q : Point) :
    (popPhase rc q).getLast? = rc.getLast? := by
  match rc with
  | [] => rfl
  | [x] => rfl
  | b :: a :: rest =>
    rw [popPhase]
    split
    · rw [popPhase_getLast? (a :: rest) q]
      exact (List.getLast?_cons_cons).symm
    · rfl

theorem popPhase_stop (rc : List Point) (q : Point) :
    (popPhase rc q).length ≤ 1 ∨
      ∃ t s rest, popPhase rc q = t :: s :: rest ∧ 0 < cross s t q := by
  match rc with
  | [] => left; simp [popPhase]
  | [x] => left; simp [popPhase]
  | b :: a :: rest =>
    rw [popPhase]
    split
    · exact popPhase_stop (a :: rest) q
    · next hcond => exact Or.inr ⟨b, a, rest, rfl, by linarith [not_le.mp hcond]⟩

/-- Maintenance of the cover invariant through the pop phase: any
processed point is either on the non-negative side of the chord from the
current chain head to `q`, or lies at or left of the head's column. -/
theorem popPhase_cover (processed : List Point) (q : Point)
    (hq : ∀ p ∈ processed, lexLt p q) :
    ∀ rc : List Point,
      (∀ c ∈ rc, c ∈ processed) →
      DecrChain rc →
      (∀ p ∈ processed, EdgesOK p rc) →
      (∀ p ∈ processed, 0 ≤ cross rc.headI q p ∨ p.col ≤ rc.headI.col) →
      ∀ p ∈ processed,
        0 ≤ cross (popPhase rc q).headI q p ∨ p.col ≤ (popPhase rc q).headI.col := by
  intro rc
  match rc with
  | [] => intro _ _ _ hcover; exact hcover
  | [x] => intro _ _ _ hcover; simpa [popPhase] using hcover
  | b :: a :: rest =>
    intro hsub hdec hedges hcover
    rw [show popPhase (b :: a :: rest) q =
      if cross a b q ≤ 0 then popPhase (a :: rest) q else b :: a :: rest from rfl]
    split
    · next hcond =>
      -- b is popped; re-establish the cover for the chain headed by a
      refine popPhase_cover processed q hq (a :: rest)
        (fun c hc => hsub c (List.mem_cons_of_mem b hc))
        hdec.tail
        (fun p hp => EdgesOK_tail (hedges p hp))
        ?_
      intro p hp
      by_cases hc : p.col ≤ a.col
      · exact Or.inr hc
      · left
        push_neg at hc
        have haq : lexLt a q := hq a (hsub a (by simp))
        have hbq : lexLt b q := hq b (hsub b (by simp))
        have hab : lexLt a b := by
          have h2 := hdec
          rw [DecrChain, List.chain'_cons] at h2
          exact h2.1
        rcases hcover p hp with hcv | hcv
        · -- p was above the chord (b, q); pop condition pushes it down to (a, q)
          have h1 : 0 ≤ cross a q b := by
            rw [show cross a q b = -cross a b q from by unfold cross; ring]
            linarith
          exact lemC haq hbq (lexLt_col_le (hq p hp)) h1 hcv
        · -- p lies between the columns of a and b: use the edge (a, b)
          exact lemD hab hbq (hedges p hp).1 hcond hc hcv
    · exact hcover

theorem lexLe_refl (a : Point) : lexLe a a := Or.inr ⟨rfl, le_refl _⟩

theorem lexLe_of_lexLt {a b : Point} (h : lexLt a b) : lexLe a b := by
  rcases h with h | ⟨h1, h2⟩
  · exact Or.inl h
  · exact Or.inr ⟨h1, le_of_lt h2⟩

theorem pairwise_head?_le {l : List Point} (h : List.Pairwise lexLt l) {x : Point}
    (hx : l.head? = some x) : ∀ p ∈ l, lexLe x p := by
  cases l with
  | nil => simp at hx
  | cons y t =>
    obtain rfl : y = x := by simpa using hx
    intro p hp
    rcases List.mem_cons.mp hp with rfl | hp
    · exact lexLe_refl p
    · exact lexLe_of_lexLt ((List.pairwise_cons.mp h).1 p hp)

theorem pairwise_getLast?_ge {l : List Point} (h : List.Pairwise lexLt l) {x : Point}
    (hx : l.getLast? = some x) : ∀ p ∈ l, lexLe p x := by
  intro p hp
  rcases List.eq_nil_or_concat l with rfl | ⟨t, y, rfl⟩
  · simp at hx
  · rw [List.concat_eq_append] at h hx hp
    rw [List.getLast?_concat] at hx
    have hyx : y = x := Option.some.inj hx
    subst hyx
    rw [List.pairwise_append] at h
    rcases List.mem_append.mp hp with hp | hp
    · exact lexLe_of_lexLt (h.2.2 p hp y (by simp))
    · simp at hp
      exact hp ▸ lexLe_refl y

/-- Once the top edge of a decreasing convex chain is a strict left turn
with `q`, every deeper edge is too. -/
theorem edges_ok_of_top (q : Point) :
    ∀ (rest : List Point) (t s : Point),
      DecrChain (t :: s :: rest) → Convex3 (t :: s :: rest) →
      (∀ c ∈ t :: s :: rest, lexLt c q) → 0 < cross s t q →
      EdgesOK q (t :: s :: rest) := by
  intro rest
  induction rest with
  | nil =>
    intro t s _ _ _ htop
    exact ⟨le_of_lt htop, trivial⟩
  | cons u rest' ih =>
    intro t s hdec hconv hmem htop
    refine ⟨le_of_lt htop, ?_⟩
    have hst : lexLt s t := by
      have h2 := hdec
      rw [DecrChain, List.chain'_cons] at h2
      exact h2.1
    have hus : lexLt u s := by
      have h2 := hdec
      rw [DecrChain, List.chain'_cons, List.chain'_cons] at h2
      exact h2.2.1
    have htq : lexLt t q := hmem t (by simp)
    have hnext : 0 < cross u s q := lemA hus hst htq hconv.1 htop
    exact ih s u hdec.tail (Convex3_tail hconv)
      (fun c hc => hmem c (List.mem_cons_of_mem t hc)) hnext

/-- The master invariant of the half-hull scan: over a strictly
`lexLt`-sorted input, the reversed chain runs from the last input point
back to the first, uses only input points, is strictly decreasing, makes
only strict left turns, and keeps every input point on the non-negative
side of each of its edges. -/
theorem chainRev_master (pts : List Point) (hsorted : List.Pairwise lexLt pts) :
    (chainRev pts).getLast? = pts.head? ∧
    (chainRev pts).head? = pts.getLast? ∧
    (∀ c ∈ chainRev pts, c ∈ pts) ∧
    DecrChain (chainRev pts) ∧
    Convex3 (chainRev pts) ∧
    ∀ p ∈ pts, EdgesOK p (chainRev pts) := by
  induction pts using List.reverseRecOn with
  | nil =>
    exact ⟨rfl, rfl, by simp [chainRev], by simp [chainRev, DecrChain], trivial, by simp⟩
  | append_singleton l q ih =>
    rw [List.pairwise_append] at hsorted
    obtain ⟨hpl, -, hq'⟩ := hsorted
    have hq : ∀ p ∈ l, lexLt p q := fun p hp => hq' p hp q (by simp)
    have ⟨ihLast, ihHead, ihSub, ihDec, ihConv, ihEdges⟩ := ih hpl
    have hrc : chainRev (l ++ [q]) = q :: popPhase (chainRev l) q := by
      rw [chainRev, List.foldl_append]
      rfl
    by_cases hlne' : l = []
    · subst hlne'
      refine ⟨?_, ?_, ?_, ?_, ?_, ?_⟩ <;>
        simp [chainRev, scanStep, popPhase, DecrChain, Convex3, EdgesOK, cross_self_right]
    · have hlne : l ≠ [] := hlne'
      have hrcne : chainRev l ≠ [] := by
        intro h0
        rw [h0] at ihHead
        rw [List.getLast?_eq_none_iff.mp ihHead.symm] at hlne
        exact hlne rfl
      set rc := chainRev l with hrcdef
      set rc2 := popPhase rc q with hrc2def
      have hrc2ne : rc2 ≠ [] := popPhase_ne_nil rc q hrcne
      have hsuf : rc2 <:+ rc := popPhase_suffix rc q
      have hsub2 : ∀ c ∈ rc2, c ∈ l := fun c hc => ihSub c (hsuf.subset hc)
      have hdec2 : DecrChain rc2 := by
        obtain ⟨pre, hpre⟩ := hsuf
        rw [DecrChain] at ihDec ⊢
        rw [← hpre] at ihDec
        clear hpre
        induction pre with
        | nil => exact ihDec
        | cons z t iht => exact iht ihDec.tail
      have hconv2 : Convex3 rc2 := Convex3_suffix hsuf ihConv
      have hedges2 : ∀ p ∈ l, EdgesOK p rc2 := fun p hp => EdgesOK_suffix hsuf (ihEdges p hp)
      -- initial cover: every processed point is at or left of the head column
      have hcover0 : ∀ p ∈ l, 0 ≤ cross rc.headI q p ∨ p.col ≤ rc.headI.col := by
        intro p hp
        right
        cases hrcv : rc with
        | nil => exact absurd hrcv hrcne
        | cons hh ht =>
          have hlast : l.getLast? = some hh := by
            rw [← ihHead, hrcv]
            rfl
          have h1 := pairwise_getLast?_ge hpl hlast p hp
          exact lexLe_col_le h1
      have hcover := popPhase_cover l q hq rc ihSub ihDec ihEdges hcover0
      -- final coverage of the new edge (rc2.headI, q)
      have hcross : ∀ p ∈ l, 0 ≤ cross rc2.headI q p := by
        intro p hp
        rcases hcover p hp with h | h
        · exact h
        · rw [← hrc2def] at h
          rcases popPhase_stop rc q with hstop | ⟨t', s, rest, heq, hpos⟩
          · -- chain popped to the single bottom point
            obtain ⟨t, ht⟩ : ∃ t, rc2 = [t] := by
              cases hrc2v : rc2 with
              | nil => exact absurd hrc2v hrc2ne
              | cons z zt =>
                cases hzt : zt with
                | nil => exact ⟨z, rfl⟩
                | cons w wt =>
                  rw [← hrc2def, hrc2v, hzt] at hstop
                  simp at hstop
            have htbot : rc2.getLast? = l.head? := by
              rw [hrc2def, popPhase_getLast?]
              exact ihLast
            rw [ht] at htbot
            simp at htbot
            have htmin : ∀ p' ∈ l, lexLe t p' := pairwise_head?_le hpl htbot.symm
            have hpc : p.col = t.col := by
              have h1 := lexLe_col_le (htmin p hp)
              rw [ht] at h
              simp [List.headI] at h
              linarith
            rw [ht]
            exact lemE (htmin p hp) hpc (hq t (by
              have : t ∈ rc2 := by rw [ht]; simp
              exact hsub2 t this))
          · -- stopped at a strict edge
            rw [← hrc2def] at heq
            rw [heq] at h ⊢
            simp only [List.headI] at h ⊢
            have hst : lexLt s t' := by
              have h2 := hdec2
              rw [heq, DecrChain, List.chain'_cons] at h2
              exact h2.1
            have htq : lexLt t' q := hq t' (hsub2 t' (by rw [heq]; simp))
            have hedge : 0 ≤ cross s t' p := by
              have h3 := hedges2 p hp
              rw [heq] at h3
              exact h3.1
            exact lemB hst htq hpos hedge h
      refine ⟨?_, ?_, ?_, ?_, ?_, ?_⟩
      · -- getLast?
        rw [hrc]
        cases hrc2v : rc2 with
        | nil => exact absurd hrc2v hrc2ne
        | cons z zt =>
          rw [← hrc2v, show (q :: rc2).getLast? = rc2.getLast? by
            rw [hrc2v]; exact List.getLast?_cons_cons]
          rw [hrc2def, popPhase_getLast?]
          rw [ihLast]
          obtain ⟨x', l'', rfl⟩ := List.exists_cons_of_ne_nil hlne
          rfl
      · -- head?
        rw [hrc, List.getLast?_concat]
        rfl
      · -- subset
        rw [hrc]
        intro c hc
        rcases List.mem_cons.mp hc with rfl | hc
        · simp
        · exact List.mem_append_left [q] (hsub2 c hc)
      · -- decreasing
        rw [hrc, DecrChain, List.chain'_cons']
        constructor
        · intro y hy
          have hymem : y ∈ rc2 := by
            cases hrc2v : rc2 with
            | nil => exact absurd hrc2v hrc2ne
            | cons z zt =>
              rw [hrc2v] at hy
              simp at hy
              simp [hy]
          exact hq y (hsub2 y hymem)
        · exact hdec2
      · -- convex
        rw [hrc]
        rcases popPhase_stop rc q with hstop | ⟨t', s, rest, heq, hpos⟩
        · cases hrc2v : rc2 with
          | nil => exact absurd hrc2v hrc2ne
          | cons z zt =>
            cases hzt : zt with
            | nil => exact trivial
            | cons w wt =>
              rw [← hrc2def, hrc2v, hzt] at hstop
              simp at hstop
        · rw [← hrc2def] at heq
          rw [heq]
          have h4 := hconv2
          rw [heq] at h4
          exact ⟨hpos, h4⟩
      · -- edges
        rw [hrc]
        intro p hp
        rcases List.mem_append.mp hp with hp | hp
        · -- an old point: the new edge by coverage, the old edges by restriction
          cases hrc2v : rc2 with
          | nil => exact absurd hrc2v hrc2ne
          | cons z zt =>
            rw [← hrc2v]
            have h5 : 0 ≤ cross rc2.headI q p := hcross p hp
            rw [hrc2v] at h5 ⊢
            simp only [List.headI] at h5
            exact ⟨h5, by
              have h6 := hedges2 p hp
              rw [hrc2v] at h6
              exact h6⟩
        · -- the new point q itself
          simp at hp
          subst hp
          cases hrc2v : rc2 with
          | nil => exact absurd hrc2v hrc2ne
          | cons z zt =>
            rw [← hrc2v]
            have h5 : 0 ≤ cross rc2.headI p p := le_of_eq (cross_self_right _ _).symm
            rw [hrc2v] at h5 ⊢
            simp only [List.headI] at h5
            refine ⟨h5, ?_⟩
            rcases popPhase_stop rc p with hstop | ⟨t', s, rest, heq, hpos⟩
            · cases hzt : zt with
              | nil => trivial
              | cons w wt =>
                rw [← hrc2def, hrc2v, hzt] at hstop
                simp at hstop
            · rw [← hrc2def] at heq
              have heq' : z :: zt = t' :: s :: rest := by rw [← hrc2v, heq]
              rw [heq']
              have h7 := edges_ok_of_top p rest t' s ?_ ?_ ?_ hpos
              · exact h7
              · have h8 := hdec2
                rw [heq] at h8
                exact h8
              · have h8 := hconv2
                rw [heq] at h8
                exact h8
              · intro c hc
                refine hq c (hsub2 c ?_)
                rw [heq]
                exact hc


/-! ### The upper chain via coordinate negation -/

/-- Negating both coordinates: turns the upper-hull scan (which processes the
sorted points in reverse) into a lower-hull scan on the negated points. -/
def pointNeg (p : Point) : Point := ⟨-p.row, -p.col⟩

theorem pointNeg_pointNeg (p : Point) : pointNeg (pointNeg p) = p := by
  cases p
  simp [pointNeg]

theorem pointNeg_injective : Function.Injective pointNeg := by
  intro a b h
  have h2 := congrArg pointNeg h
  rwa [pointNeg_pointNeg, pointNeg_pointNeg] at h2

theorem cross_pointNeg (o a b : Point) :
    cross (pointNeg o) (pointNeg a) (pointNeg b) = cross o a b := by
  unfold cross pointNeg
  ring

theorem lexLt_pointNeg {a b : Point} : lexLt (pointNeg a) (pointNeg b) ↔ lexLt b a := by
  obtain ⟨ar, ac⟩ := a
  obtain ⟨br, bc⟩ := b
  simp only [lexLt, pointNeg]
  constructor
  · rintro (h | ⟨h1, h2⟩)
    · exact Or.inl (by linarith)
    · exact Or.inr ⟨by linarith, by linarith⟩
  · rintro (h | ⟨h1, h2⟩)
    · exact Or.inl (by linarith)
    · exact Or.inr ⟨by linarith, by linarith⟩

theorem popPhase_map_neg (l : List Point) (q : Point) :
    popPhase (l.map pointNeg) (pointNeg q) = (popPhase l q).map pointNeg := by
  induction l with
  | nil => rfl
  | cons b t ih =>
    cases t with
    | nil => rfl
    | cons a rest =>
      simp only [List.map_cons]
      simp only [List.map_cons] at ih
      rw [show popPhase (pointNeg b :: pointNeg a :: rest.map pointNeg) (pointNeg q) =
            if cross (pointNeg a) (pointNeg b) (pointNeg q) ≤ 0 then
              popPhase (pointNeg a :: rest.map pointNeg) (pointNeg q)
            else pointNeg b :: pointNeg a :: rest.map pointNeg from rfl]
      rw [show popPhase (b :: a :: rest) q =
            if cross a b q ≤ 0 then popPhase (a :: rest) q else b :: a :: rest from rfl]
      rw [cross_pointNeg]
      by_cases h : cross a b q ≤ 0
      · rw [if_pos h, if_pos h, ih]
      · rw [if_neg h, if_neg h, List.map_cons, List.map_cons]

theorem foldl_scanStep_map_neg (l : List Point) :
    ∀ acc : List Point,
      (l.map pointNeg).foldl scanStep (acc.map pointNeg) = (l.foldl scanStep acc).map pointNeg := by
  induction l with
  | nil => intro acc; rfl
  | cons x t ih =>
    intro acc
    simp only [List.map_cons, List.foldl_cons]
    rw [show scanStep (acc.map pointNeg) (pointNeg x) = (scanStep acc x).map pointNeg by
      rw [scanStep, scanStep, popPhase_map_neg, List.map_cons]]
    exact ih (scanStep acc x)

theorem chainRev_map_neg (l : List Point) :
    chainRev (l.map pointNeg) = (chainRev l).map pointNeg := by
  rw [chainRev, chainRev]
  have h := foldl_scanStep_map_neg l []
  simpa using h

theorem Convex3_map_neg (l : List Point) : Convex3 (l.map pointNeg) ↔ Convex3 l := by
  induction l with
  | nil => exact iff_of_true trivial trivial
  | cons w t ih =>
    cases t with
    | nil => exact iff_of_true trivial trivial
    | cons v t2 =>
      cases t2 with
      | nil => exact iff_of_true trivial trivial
      | cons u t3 =>
        simp only [List.map_cons]
        simp only [List.map_cons] at ih
        constructor
        · rintro ⟨h1, h2⟩
          rw [cross_pointNeg] at h1
          exact ⟨h1, ih.mp h2⟩
        · rintro ⟨h1, h2⟩
          refine ⟨?_, ih.mpr h2⟩
          rw [cross_pointNeg]
          exact h1

theorem EdgesOK_map_neg (p : Point) (l : List Point) :
    EdgesOK (pointNeg p) (l.map pointNeg) ↔ EdgesOK p l := by
  induction l with
  | nil => exact iff_of_true trivial trivial
  | cons b t ih =>
    cases t with
    | nil => exact iff_of_true trivial trivial
    | cons a t2 =>
      simp only [List.map_cons]
      simp only [List.map_cons] at ih
      constructor
      · rintro ⟨h1, h2⟩
        rw [cross_pointNeg] at h1
        exact ⟨h1, ih.mp h2⟩
      · rintro ⟨h1, h2⟩
        refine ⟨?_, ih.mpr h2⟩
        rw [cross_pointNeg]
        exact h1

/-! ### Facts about `dedupFirst` -/

theorem dedupFirst_mem_aux (l : List Point) :
    ∀ (acc : List Point) (a : Point),
      (a ∈ l.foldl (fun acc p => if p ∈ acc then acc else acc ++ [p]) acc ↔ a ∈ acc ∨ a ∈ l) := by
  induction l with
  | nil => intro acc a; simp
  | cons x t ih =>
    intro acc a
    simp only [List.foldl_cons]
    by_cases hx : x ∈ acc
    · rw [if_pos hx, ih]
      constructor
      · rintro (h | h)
        · exact Or.inl h
        · exact Or.inr (List.mem_cons_of_mem _ h)
      · rintro (h | h)
        · exact Or.inl h
        · rcases List.mem_cons.mp h with rfl | h
          · exact Or.inl hx
          · exact Or.inr h
    · rw [if_neg hx, ih]
      simp only [List.mem_append, List.mem_singleton, List.mem_cons]
      tauto

theorem dedupFirst_mem (l : List Point) (a : Point) : a ∈ dedupFirst l ↔ a ∈ l := by
  rw [dedupFirst, dedupFirst_mem_aux]
  simp

theorem dedupFirst_nodup_aux (l : List Point) :
    ∀ acc : List Point, acc.Nodup →
      (l.foldl (fun acc p => if p ∈ acc then acc else acc ++ [p]) acc).Nodup := by
  induction l with
  | nil => intro acc h; simpa using h
  | cons x t ih =>
    intro acc h
    simp only [List.foldl_cons]
    by_cases hx : x ∈ acc
    · rw [if_pos hx]
      exact ih acc h
    · rw [if_neg hx]
      refine ih _ ?_
      rw [List.nodup_append]
      refine ⟨h, List.nodup_singleton x, ?_⟩
      intro a ha hax
      rw [List.mem_singleton] at hax
      subst hax
      exact hx ha

theorem dedupFirst_nodup (l : List Point) : (dedupFirst l).Nodup :=
  dedupFirst_nodup_aux l [] List.nodup_nil

theorem dedupFirst_length_aux (l : List Point) :
    ∀ acc : List Point,
      (l.foldl (fun acc p => if p ∈ acc then acc else acc ++ [p]) acc).length ≤
        acc.length + l.length := by
  induction l with
  | nil => intro acc; simp
  | cons x t ih =>
    intro acc
    simp only [List.foldl_cons, List.length_cons]
    by_cases hx : x ∈ acc
    · rw [if_pos hx]
      have h2 := ih acc
      omega
    · rw [if_neg hx]
      have h2 := ih (acc ++ [x])
      simp only [List.length_append, List.length_singleton] at h2
      omega

theorem dedupFirst_length_le (l : List Point) : (dedupFirst l).length ≤ l.length := by
  have h := dedupFirst_length_aux l []
  simpa using h

/-! ### Cyclic edges of the hull polygon -/

/-- The cyclic edge list of a polygon: each vertex paired with its successor,
the last vertex paired with the first. -/
def zipNext (l : List Point) : List (Point × Point) := l.zip (l.rotate 1)

theorem rotate_one_cons (a : Point) (t : List Point) : (a :: t).rotate 1 = t ++ [a] := by
  have h := List.rotate_cons_succ t a 0
  simpa using h

theorem forall_zip_pairs {R : Point → Point → Prop} (w : Point) :
    ∀ (t : List Point) (a : Point), List.Chain' R (a :: t) →
      (∀ x ∈ (a :: t).getLast?, R x w) →
      ∀ e ∈ (a :: t).zip (t ++ [w]), R e.1 e.2 := by
  intro t
  induction t with
  | nil =>
    intro a _ hseam e he
    simp only [List.nil_append] at he
    have he2 : e = (a, w) := by simpa using he
    subst he2
    exact hseam a rfl
  | cons b t' ih =>
    intro a hc hseam e he
    rw [show ((a :: b :: t').zip ((b :: t') ++ [w])) =
          (a, b) :: ((b :: t').zip (t' ++ [w])) from rfl] at he
    rcases List.mem_cons.mp he with rfl | he
    · exact (List.chain'_cons.mp hc).1
    · exact ih b (List.chain'_cons.mp hc).2
        (fun x hx => hseam x (List.mem_getLast?_cons hx)) e he

theorem forall_zipNext {R : Point → Point → Prop} (l : List Point)
    (hc : List.Chain' R l) (hseam : ∀ x ∈ l.getLast?, ∀ y ∈ l.head?, R x y) :
    ∀ e ∈ zipNext l, R e.1 e.2 := by
  cases l with
  | nil =>
    intro e he
    simp [zipNext] at he
  | cons a t =>
    intro e he
    rw [zipNext, rotate_one_cons] at he
    exact forall_zip_pairs a t a hc (fun x hx => hseam x hx a rfl) e he

/-- `EdgesOK` over the reversed chain is exactly a `Chain'` of edge-side
conditions. -/
theorem EdgesOK_iff_chain (p : Point) (l : List Point) :
    EdgesOK p l ↔ List.Chain' (fun b a => 0 ≤ cross a b p) l := by
  induction l with
  | nil => exact iff_of_true trivial List.chain'_nil
  | cons b t ih =>
    cases t with
    | nil => exact iff_of_true trivial (List.chain'_singleton b)
    | cons a t2 =>
      rw [List.chain'_cons]
      constructor
      · rintro ⟨h1, h2⟩
        exact ⟨h1, ih.mp h2⟩
      · rintro ⟨h1, h2⟩
        exact ⟨h1, ih.mpr h2⟩


/-! ### Sortedness and nodup facts -/

theorem sorted_pairwise_lexLt (u : List Point) (hu : u.Nodup) :
    List.Pairwise lexLt (u.insertionSort lexLe) := by
  have hs : List.Sorted lexLe (u.insertionSort lexLe) := List.sorted_insertionSort lexLe u
  have hperm : List.Perm (u.insertionSort lexLe) u := List.perm_insertionSort lexLe u
  have hnd : (u.insertionSort lexLe).Nodup := hperm.nodup_iff.mpr hu
  have hand := List.Pairwise.and hs hnd
  exact hand.imp (fun h => lexLt_of_lexLe_ne h.1 h.2)

theorem decr_chain_nodup {l : List Point} (h : List.Chain' (fun a b => lexLt b a) l) :
    l.Nodup := by
  haveI : IsTrans Point (fun a b => lexLt b a) := ⟨fun a b c h1 h2 => lexLt_trans h2 h1⟩
  rw [List.chain'_iff_pairwise] at h
  exact h.imp (fun hab => (lexLt_ne hab).symm)

theorem incr_chain_nodup {l : List Point} (h : List.Chain' lexLt l) : l.Nodup := by
  haveI : IsTrans Point lexLt := ⟨fun a b c => lexLt_trans⟩
  rw [List.chain'_iff_pairwise] at h
  exact h.imp (fun hab => lexLt_ne hab)

/-! ### The upper half-hull, by negation transport -/

theorem upper_master (pts : List Point) (hsorted : List.Pairwise lexLt pts) :
    (chainRev pts.reverse).getLast? = pts.getLast? ∧
    (chainRev pts.reverse).head? = pts.head? ∧
    (∀ c ∈ chainRev pts.reverse, c ∈ pts) ∧
    List.Chain' lexLt (chainRev pts.reverse) ∧
    Convex3 (chainRev pts.reverse) ∧
    ∀ p ∈ pts, EdgesOK p (chainRev pts.reverse) := by
  have hp2 : List.Pairwise lexLt (pts.reverse.map pointNeg) := by
    rw [List.pairwise_map, List.pairwise_reverse]
    exact hsorted.imp (fun h => lexLt_pointNeg.mpr h)
  obtain ⟨mLast, mHead, mSub, mDec, mConv, mEdges⟩ :=
    chainRev_master (pts.reverse.map pointNeg) hp2
  rw [chainRev_map_neg] at mLast mHead mSub mDec mConv mEdges
  refine ⟨?_, ?_, ?_, ?_, ?_, ?_⟩
  · rw [List.getLast?_map, List.head?_map, List.head?_reverse] at mLast
    exact Option.map_injective pointNeg_injective mLast
  · rw [List.head?_map, List.getLast?_map, List.getLast?_reverse] at mHead
    exact Option.map_injective pointNeg_injective mHead
  · intro c hc
    have h2 := mSub (pointNeg c) (List.mem_map_of_mem _ hc)
    rw [List.mem_map] at h2
    obtain ⟨d, hd, hdc⟩ := h2
    have hdcc : d = c := pointNeg_injective hdc
    subst hdcc
    exact (List.mem_reverse).mp hd
  · rw [DecrChain, List.chain'_map] at mDec
    exact mDec.imp (fun a b h => lexLt_pointNeg.mp h)
  · rw [Convex3_map_neg] at mConv
    exact mConv
  · intro p hp
    have hp3 : pointNeg p ∈ pts.reverse.map pointNeg :=
      List.mem_map_of_mem _ ((List.mem_reverse).mpr hp)
    have h3 := mEdges (pointNeg p) hp3
    exact (EdgesOK_map_neg p _).mp h3

/-! ### Interior points of a chain -/

theorem interior_mem_split {z : Point} :
    ∀ l : List Point, z ∈ l → l.head? ≠ some z → l.getLast? ≠ some z →
      ∃ l1 b a l2, l = l1 ++ b :: z :: a :: l2 := by
  intro l
  induction l with
  | nil => intro hz; simp at hz
  | cons c t ih =>
    intro hz hh hl
    have hzc : z ≠ c := by
      intro h
      exact hh (by rw [List.head?_cons, h])
    have hzt : z ∈ t := by
      rcases List.mem_cons.mp hz with h | h
      · exact absurd h hzc
      · exact h
    cases t with
    | nil => simp at hzt
    | cons d t2 =>
      by_cases hzd : z = d
      · subst hzd
        cases t2 with
        | nil =>
          exact absurd (by simp) hl
        | cons a t3 =>
          exact ⟨[], c, a, t3, rfl⟩
      · have hh2 : (d :: t2).head? ≠ some z := by
          intro h
          simp at h
          exact hzd h.symm
        have hl2 : (d :: t2).getLast? ≠ some z := by
          intro h
          apply hl
          rw [List.getLast?_cons_cons]
          exact h
        obtain ⟨l1, b, a, l2, heq⟩ := ih hzt hh2 hl2
        exact ⟨c :: l1, b, a, l2, by rw [List.cons_append, heq]⟩

/-- The geometric heart of hull vertex disjointness: no point `z` can be an
interior vertex of both the lower chain (neighbours `x`, `y`) and the upper
chain (neighbours `x'`, `y'`) while both chains keep every point of the other
chain on their non-negative side. -/
theorem hull_no_common_interior
    (x y z x' y' : Point)
    (hxz : lexLt x z) (hzy : lexLt z y) (hzx' : lexLt z x') (hy'z : lexLt y' z)
    (hconvL : 0 < cross x z y) (hconvU : 0 < cross x' z y')
    (h1 : 0 ≤ cross x z x') (h2 : 0 ≤ cross x' z x)
    (h3 : 0 ≤ cross z y y') (h4 : 0 ≤ cross z y' y)
    (h5 : 0 ≤ cross z y x') (h6 : 0 ≤ cross x z y') : False := by
  have sw1 : cross x' z x = -cross x z x' := by unfold cross; ring
  have e1 : cross x z x' = 0 := by rw [sw1] at h2; linarith
  have sw2 : cross z y' y = -cross z y y' := by unfold cross; ring
  have e2 : cross z y y' = 0 := by rw [sw2] at h4; linarith
  have id1 := cross_id x z y x'
  rw [e1, zero_mul] at id1
  have colxz : x.col ≤ z.col := lexLt_col_le hxz
  have colzy : z.col ≤ y.col := lexLt_col_le hzy
  have colzx' : z.col ≤ x'.col := lexLt_col_le hzx'
  have coly'z : y'.col ≤ z.col := lexLt_col_le hy'z
  have hA : x'.col = z.col := by
    by_contra hne
    have hlt : z.col < x'.col := lt_of_le_of_ne colzx' (fun h => hne h.symm)
    have p1 : 0 < cross x z y * (x'.col - z.col) := mul_pos hconvL (by linarith)
    have p2 : 0 ≤ cross z y x' * (z.col - x.col) := mul_nonneg h5 (by linarith)
    linarith
  have rowA : z.row < x'.row := by
    rcases hzx' with h | ⟨hc, hr⟩
    · rw [hA] at h
      exact absurd h (lt_irrefl _)
    · exact hr
  have sw3 : cross y z y' = -cross z y y' := by unfold cross; ring
  have sw4 : cross y z x = -cross x z y := by unfold cross; ring
  have sw5 : cross z x y' = -cross x z y' := by unfold cross; ring
  have id2 := cross_id y z x y'
  rw [sw3, e2, neg_zero, zero_mul, sw4, sw5] at id2
  have hB : y'.col = z.col := by
    by_contra hne
    have hlt : y'.col < z.col := lt_of_le_of_ne coly'z hne
    have p1 : 0 < cross x z y * (z.col - y'.col) := mul_pos hconvL (by linarith)
    have p2 : 0 ≤ cross x z y' * (y.col - z.col) := mul_nonneg h6 (by linarith)
    nlinarith [id2, p1, p2]
  have rowB : y'.row < z.row := by
    rcases hy'z with h | ⟨hc, hr⟩
    · rw [hB] at h
      exact absurd h (lt_irrefl _)
    · exact hr
  have hzero : cross x' z y' = 0 := by
    unfold cross
    rw [hA, hB]
    ring
  linarith


/-! ### Assembling the full hull polygon -/

theorem hull_assembly
    (sorted low up : List Point)
    (hpl : List.Pairwise lexLt sorted)
    (hslen : 3 ≤ sorted.length)
    (loLast : low.getLast? = sorted.head?)
    (loHead : low.head? = sorted.getLast?)
    (loSub : ∀ c ∈ low, c ∈ sorted)
    (loDec : List.Chain' (fun a b => lexLt b a) low)
    (loConv : Convex3 low)
    (loEdges : ∀ p ∈ sorted, EdgesOK p low)
    (upLast : up.getLast? = sorted.getLast?)
    (upHead : up.head? = sorted.head?)
    (upSub : ∀ c ∈ up, c ∈ sorted)
    (upInc : List.Chain' lexLt up)
    (upConv : Convex3 up)
    (upEdges : ∀ p ∈ sorted, EdgesOK p up) :
    (∀ p ∈ sorted, ∀ e ∈ zipNext (low.tail.reverse ++ up.tail.reverse), 0 ≤ cross e.1 e.2 p) ∧
    (∀ c ∈ low.tail.reverse ++ up.tail.reverse, c ∈ sorted) ∧
    (low.tail.reverse ++ up.tail.reverse).Nodup := by
  obtain ⟨m, hm⟩ : ∃ m, sorted.head? = some m := by
    cases h : sorted.head? with
    | none =>
      rw [List.head?_eq_none_iff] at h
      rw [h] at hslen
      simp at hslen
    | some a => exact ⟨a, rfl⟩
  obtain ⟨M, hM⟩ : ∃ M, sorted.getLast? = some M := by
    cases h : sorted.getLast? with
    | none =>
      rw [List.getLast?_eq_none_iff] at h
      rw [h] at hslen
      simp at hslen
    | some a => exact ⟨a, rfl⟩
  have hmM : lexLt m M := by
    cases hs0 : sorted with
    | nil =>
      rw [hs0] at hslen
      simp at hslen
    | cons a t =>
      have ham : a = m := by
        rw [hs0, List.head?_cons] at hm
        simpa using hm
      cases ht0 : t with
      | nil =>
        rw [hs0, ht0] at hslen
        simp at hslen
      | cons b t2 =>
        have hMt : M ∈ t := by
          rw [hs0, ht0, List.getLast?_cons_cons] at hM
          rw [ht0]
          exact List.mem_of_getLast?_eq_some hM
        have hp2 : List.Pairwise lexLt (a :: t) := by
          rw [hs0] at hpl
          exact hpl
        have h4 := List.rel_of_pairwise_cons hp2 hMt
        rw [← ham]
        exact h4
  have hmne : m ≠ M := lexLt_ne hmM
  have hlheq : low.head? = some M := by rw [loHead, hM]
  have hltail : low.getLast? = some m := by rw [loLast, hm]
  obtain ⟨w, rest, hlow⟩ : ∃ w rest, low = M :: w :: rest := by
    cases hl0 : low with
    | nil =>
      rw [hl0] at hlheq
      simp at hlheq
    | cons a t =>
      have haM : a = M := by
        rw [hl0, List.head?_cons] at hlheq
        simpa using hlheq
      cases ht0 : t with
      | nil =>
        exfalso
        rw [hl0, ht0] at hltail
        have ham2 : a = m := by simpa using hltail
        exact hmne (by rw [← ham2, haM])
      | cons w r => exact ⟨w, r, by rw [haM]⟩
  have huheq : up.head? = some m := by rw [upHead, hm]
  have hutail : up.getLast? = some M := by rw [upLast, hM]
  obtain ⟨u1, urest, hup⟩ : ∃ u1 urest, up = m :: u1 :: urest := by
    cases hu0 : up with
    | nil =>
      rw [hu0] at huheq
      simp at huheq
    | cons a t =>
      have ham : a = m := by
        rw [hu0, List.head?_cons] at huheq
        simpa using huheq
      cases ht0 : t with
      | nil =>
        exfalso
        rw [hu0, ht0] at hutail
        have haM2 : a = M := by simpa using hutail
        exact hmne (by rw [← ham, haM2])
      | cons u1 r => exact ⟨u1, r, by rw [ham]⟩
  have hltail2 : (w :: rest).getLast? = some m := by
    rw [hlow, List.getLast?_cons_cons] at hltail
    exact hltail
  have hutail2 : (u1 :: urest).getLast? = some M := by
    rw [hup, List.getLast?_cons_cons] at hutail
    exact hutail
  have hAhead : low.tail.reverse.head? = some m := by
    rw [List.head?_reverse, hlow, List.tail_cons]
    exact hltail2
  have hBhead : up.tail.reverse.head? = some M := by
    rw [List.head?_reverse, hup, List.tail_cons]
    exact hutail2
  have hAlast : low.tail.reverse.getLast? = some w := by
    rw [List.getLast?_reverse, hlow, List.tail_cons, List.head?_cons]
  have hBlast : up.tail.reverse.getLast? = some u1 := by
    rw [List.getLast?_reverse, hup, List.tail_cons, List.head?_cons]
  have hAsub : ∀ c ∈ low.tail.reverse, c ∈ low := by
    intro c hc
    rw [List.mem_reverse] at hc
    exact List.mem_of_mem_tail hc
  have hBsub : ∀ c ∈ up.tail.reverse, c ∈ up := by
    intro c hc
    rw [List.mem_reverse] at hc
    exact List.mem_of_mem_tail hc
  have hlowND : low.Nodup := decr_chain_nodup loDec
  have hupND : up.Nodup := incr_chain_nodup upInc
  have hAnd : low.tail.reverse.Nodup := by
    rw [List.nodup_reverse]
    exact List.Nodup.sublist (List.tail_sublist low) hlowND
  have hBnd : up.tail.reverse.Nodup := by
    rw [List.nodup_reverse]
    exact List.Nodup.sublist (List.tail_sublist up) hupND
  have hdisj : ∀ z ∈ low.tail.reverse, z ∈ up.tail.reverse → False := by
    intro z hzA hzB
    rw [List.mem_reverse] at hzA hzB
    have hzlow : z ∈ low := List.mem_of_mem_tail hzA
    have hzup : z ∈ up := List.mem_of_mem_tail hzB
    have hzM : z ≠ M := by
      intro h
      have h2 : z ∈ w :: rest := by
        rw [hlow, List.tail_cons] at hzA
        exact hzA
      rw [h] at h2
      have h3 : (M :: w :: rest).Nodup := by
        rw [hlow] at hlowND
        exact hlowND
      exact (List.nodup_cons.mp h3).1 h2
    have hzm : z ≠ m := by
      intro h
      have h2 : z ∈ u1 :: urest := by
        rw [hup, List.tail_cons] at hzB
        exact hzB
      rw [h] at h2
      have h3 : (m :: u1 :: urest).Nodup := by
        rw [hup] at hupND
        exact hupND
      exact (List.nodup_cons.mp h3).1 h2
    obtain ⟨l1, b, a, l2, hsplitL⟩ :=
      interior_mem_split low hzlow
        (by rw [hlheq]; intro h; exact hzM (Option.some.inj h).symm)
        (by rw [hltail]; intro h; exact hzm (Option.some.inj h).symm)
    obtain ⟨u1', c, d, u2', hsplitU⟩ :=
      interior_mem_split up hzup
        (by rw [huheq]; intro h; exact hzm (Option.some.inj h).symm)
        (by rw [hutail]; intro h; exact hzM (Option.some.inj h).symm)
    have hsufL : (b :: z :: a :: l2) <:+ low := ⟨l1, hsplitL.symm⟩
    have hsufU : (c :: z :: d :: u2') <:+ up := ⟨u1', hsplitU.symm⟩
    have haS : a ∈ sorted := loSub a (by rw [hsplitL]; simp)
    have hbS : b ∈ sorted := loSub b (by rw [hsplitL]; simp)
    have hcS : c ∈ sorted := upSub c (by rw [hsplitU]; simp)
    have hdS : d ∈ sorted := upSub d (by rw [hsplitU]; simp)
    have hChL := loDec.suffix hsufL
    rw [List.chain'_cons] at hChL
    have hzb : lexLt z b := hChL.1
    have hChL2 := hChL.2
    rw [List.chain'_cons] at hChL2
    have haz : lexLt a z := hChL2.1
    have hChU := upInc.suffix hsufU
    rw [List.chain'_cons] at hChU
    have hcz : lexLt c z := hChU.1
    have hChU2 := hChU.2
    rw [List.chain'_cons] at hChU2
    have hzd : lexLt z d := hChU2.1
    have hconvL : 0 < cross a z b := (Convex3_suffix hsufL loConv).1
    have hconvU : 0 < cross d z c := (Convex3_suffix hsufU upConv).1
    have hLd := EdgesOK_suffix hsufL (loEdges d hdS)
    have hLc := EdgesOK_suffix hsufL (loEdges c hcS)
    have hUa := EdgesOK_suffix hsufU (upEdges a haS)
    have hUb := EdgesOK_suffix hsufU (upEdges b hbS)
    exact hull_no_common_interior a b z d c haz hzb hzd hcz hconvL hconvU
      hLd.2.1 hUa.2.1 hLc.1 hUb.1 hLd.1 hLc.2.1
  refine ⟨?_, ?_, ?_⟩
  · intro p hp
    have hChA : List.Chain' (fun s t => 0 ≤ cross s t p) low.tail.reverse := by
      rw [List.chain'_reverse]
      have h1 := loEdges p hp
      rw [hlow] at h1
      have h2 := EdgesOK_tail h1
      rw [EdgesOK_iff_chain] at h2
      rw [hlow, List.tail_cons]
      exact h2
    have hChB : List.Chain' (fun s t => 0 ≤ cross s t p) up.tail.reverse := by
      rw [List.chain'_reverse]
      have h1 := upEdges p hp
      rw [hup] at h1
      have h2 := EdgesOK_tail h1
      rw [EdgesOK_iff_chain] at h2
      rw [hup, List.tail_cons]
      exact h2
    have hedgeL : 0 ≤ cross w M p := by
      have h1 := loEdges p hp
      rw [hlow] at h1
      exact h1.1
    have hedgeU : 0 ≤ cross u1 m p := by
      have h1 := upEdges p hp
      rw [hup] at h1
      exact h1.1
    have hChAll : List.Chain' (fun s t => 0 ≤ cross s t p)
        (low.tail.reverse ++ up.tail.reverse) := by
      refine List.Chain'.append hChA hChB ?_
      intro xx hxx yy hyy
      rw [hAlast] at hxx
      rw [hBhead] at hyy
      have hxw : w = xx := by simpa using hxx
      have hyM : M = yy := by simpa using hyy
      rw [← hxw, ← hyM]
      exact hedgeL
    refine forall_zipNext _ hChAll ?_
    intro xx hxx yy hyy
    rw [List.getLast?_append, hBlast, Option.or_some] at hxx
    rw [List.head?_append, hAhead, Option.or_some] at hyy
    have hxu : u1 = xx := by simpa using hxx
    have hym : m = yy := by simpa using hyy
    rw [← hxu, ← hym]
    exact hedgeU
  · intro cc hcc
    rcases List.mem_append.mp hcc with h | h
    · exact loSub cc (hAsub cc h)
    · exact upSub cc (hBsub cc h)
  · rw [List.nodup_append]
    exact ⟨hAnd, hBnd, fun z hz hz2 => hdisj z hz hz2⟩

theorem getConvexHull_spec (points : List Point) (h3 : 3 ≤ (dedupFirst points).length) :
    (∀ p ∈ points, ∀ e ∈ zipNext (getConvexHull points), 0 ≤ cross e.1 e.2 p) ∧
    (∀ c ∈ getConvexHull points, c ∈ points) ∧
    (getConvexHull points).Nodup := by
  have hlen := dedupFirst_length_le points
  have hnl1 : ¬ points.length < 3 := by omega
  have hnl2 : ¬ (dedupFirst points).length < 3 := by omega
  have hG : getConvexHull points =
      (chainRev ((dedupFirst points).insertionSort lexLe)).tail.reverse ++
        (chainRev ((dedupFirst points).insertionSort lexLe).reverse).tail.reverse := by
    rw [getConvexHull, if_neg hnl1]
    simp only [if_neg hnl2]
  have hpl : List.Pairwise lexLt ((dedupFirst points).insertionSort lexLe) :=
    sorted_pairwise_lexLt _ (dedupFirst_nodup points)
  have hslen : 3 ≤ ((dedupFirst points).insertionSort lexLe).length := by
    rw [(List.perm_insertionSort lexLe _).length_eq]
    exact h3
  have hmem : ∀ p, p ∈ (dedupFirst points).insertionSort lexLe ↔ p ∈ points := by
    intro p
    rw [(List.perm_insertionSort lexLe _).mem_iff, dedupFirst_mem]
  obtain ⟨loLast, loHead, loSub, loDec, loConv, loEdges⟩ :=
    chainRev_master ((dedupFirst points).insertionSort lexLe) hpl
  obtain ⟨upLast, upHead, upSub, upInc, upConv, upEdges⟩ :=
    upper_master ((dedupFirst points).insertionSort lexLe) hpl
  obtain ⟨hcont, hsub, hnd⟩ :=
    hull_assembly ((dedupFirst points).insertionSort lexLe)
      (chainRev ((dedupFirst points).insertionSort lexLe))
      (chainRev ((dedupFirst points).insertionSort lexLe).reverse)
      hpl hslen loLast loHead loSub loDec loConv loEdges
      upLast upHead upSub upInc upConv upEdges
  rw [hG]
  refine ⟨?_, ?_, hnd⟩
  · intro p hp
    exact hcont p ((hmem p).mpr hp)
  · intro c hc
    exact (hmem c).mp (hsub c hc)


/-- C7: for every input point set with at least 3 unique points, the polygon
returned by `getConvexHull` contains every input point inside or on its
boundary (every input point is on the non-negative side of every directed
cyclic edge of the returned sequence), and the polygon is convex: every hull
vertex is also on the non-negative side of every edge, so the cross products
of all consecutive edge pairs share one sign (all are non-negative). -/
theorem getConvexHull_correct (points : List Point)
    (h3 : 3 ≤ (dedupFirst points).length) :
    (∀ p ∈ points, ∀ e ∈ zipNext (getConvexHull points), 0 ≤ cross e.1 e.2 p) ∧
    ∀ e ∈ zipNext (getConvexHull points), ∀ c ∈ getConvexHull points,
      0 ≤ cross e.1 e.2 c := by
  obtain ⟨hcont, hsub, -⟩ := getConvexHull_spec points h3
  exact ⟨hcont, fun e he c hc => hcont c (hsub c hc) e he⟩

theorem getConvexHull_correct_witness :
    3 ≤ (dedupFirst [⟨0, 0⟩, ⟨0, 2⟩, ⟨2, 0⟩, ⟨1, 1⟩]).length ∧
      ((∀ p ∈ ([⟨0, 0⟩, ⟨0, 2⟩, ⟨2, 0⟩, ⟨1, 1⟩] : List Point),
          ∀ e ∈ zipNext (getConvexHull [⟨0, 0⟩, ⟨0, 2⟩, ⟨2, 0⟩, ⟨1, 1⟩]),
            0 ≤ cross e.1 e.2 p) ∧
        ∀ e ∈ zipNext (getConvexHull [⟨0, 0⟩, ⟨0, 2⟩, ⟨2, 0⟩, ⟨1, 1⟩]),
          ∀ c ∈ getConvexHull [⟨0, 0⟩, ⟨0, 2⟩, ⟨2, 0⟩, ⟨1, 1⟩],
            0 ≤ cross e.1 e.2 c) :=
  ⟨by decide, getConvexHull_correct [⟨0, 0⟩, ⟨0, 2⟩, ⟨2, 0⟩, ⟨1, 1⟩] (by decide)⟩

/-- C10: for every input point list with at least 3 unique points, every point
of the sequence returned by `getConvexHull` is one of the input points (the
hull invents no new coordinates), and no point appears twice in the returned
sequence. -/
theorem getConvexHull_subset_nodup (points : List Point)
    (h3 : 3 ≤ (dedupFirst points).length) :
    (∀ c ∈ getConvexHull points, c ∈ points) ∧ (getConvexHull points).Nodup := by
  obtain ⟨-, hsub, hnd⟩ := getConvexHull_spec points h3
  exact ⟨hsub, hnd⟩

theorem getConvexHull_subset_nodup_witness :
    3 ≤ (dedupFirst [⟨0, 0⟩, ⟨3, 0⟩, ⟨0, 3⟩, ⟨3, 3⟩, ⟨1, 1⟩]).length ∧
      ((∀ c ∈ getConvexHull [⟨0, 0⟩, ⟨3, 0⟩, ⟨0, 3⟩, ⟨3, 3⟩, ⟨1, 1⟩],
          c ∈ ([⟨0, 0⟩, ⟨3, 0⟩, ⟨0, 3⟩, ⟨3, 3⟩, ⟨1, 1⟩] : List Point)) ∧
        (getConvexHull [⟨0, 0⟩, ⟨3, 0⟩, ⟨0, 3⟩, ⟨3, 3⟩, ⟨1, 1⟩]).Nodup) :=
  ⟨by decide,
    getConvexHull_subset_nodup [⟨0, 0⟩, ⟨3, 0⟩, ⟨0, 3⟩, ⟨3, 3⟩, ⟨1, 1⟩] (by decide)⟩

end LimbSocket
